import Mathlib

/-!
# Verification of the multila LR(1) parser generator core

Shallow embedding of the generator (`src/lr1.ts`, `src/lr1rule.ts`,
`src/lr1state.ts`, `src/lr1table.ts`) in Lean 4, together with theorems
settling the specification's claims about FIRST-set computation, automaton
construction, table assembly and the table-driven parse loop.

Modelling conventions:
* JavaScript `Set<string>` objects (lookahead sets, FIRST sets) are modelled
  as insertion-ordered duplicate-free lists (`StrSet` below); `Set.add` appends
  only when absent, `new Set([...a, ...b])` is `StrSet.union`.
* JavaScript string-keyed object maps (action rows, goto rows, reduce-entry
  dictionaries) are insertion-ordered association lists; `key in map` is a
  lookup on that list.
* Object identity of `LR1_Rule` references inside items equals the rule's
  position in the `rules` array (rule objects are created once and stored
  there), so items store a rule index.
* `process.exit(-1)` branches are modelled by the error value
  `GenError.fatalExit`; `throw new LR1Error(...)` by the other `GenError`
  constructors.  Loops whose termination the source leaves implicit
  (FIRST fixed point, closure fixed point, the state worklist) take fuel;
  exhausted fuel is the artificial outcome `GenError.noFuel`.
* The state graph's edge objects (shared between `outEdges` of the source
  and `inEdges` of the destination, with `dest` rewritten on state merging)
  are modelled as per-state `outEdges` slots holding an optional destination
  index that is written when the tentative successor is admitted or merged.
-/

set_option maxRecDepth 10000

/-! ## Insertion-ordered string sets (JavaScript `Set<string>`) -/

/-- JavaScript `Set<string>`: a duplicate-free list in insertion order. -/
abbrev StrSet := List String

/-- `Set.has`. -/
def StrSet.has (l : StrSet) (x : String) : Bool := l.contains x

/-- `Set.add`: append the element when it is not yet present. -/
def StrSet.add (l : StrSet) (x : String) : StrSet :=
  if l.contains x then l else l ++ [x]

/-- `new Set<string>([...a, ...b])`: iterate `b`, adding each element. -/
def StrSet.union (a b : StrSet) : StrSet := b.foldl StrSet.add a

/-! ## Grammar model (`lr1rule.ts`) -/

/-- Type of rule items: terminal (`'T'`) or non-terminal (`'NT'`). -/
inductive LR1_RuleItemType where
  | Terminal
  | NonTerminal
deriving DecidableEq

/-- A single right-hand-side item of a rule. -/
structure LR1_RuleItem where
  type : LR1_RuleItemType
  value : String
deriving DecidableEq

/-- A production rule.  The `index` field of the source is positional (set to
the list position at the start of `calcTable`), so it is not stored. -/
structure LR1_Rule where
  lhs : String
  rhs : List LR1_RuleItem
  callBackId : String
deriving DecidableEq

/-- Default rule used where the source would dereference a rule pointer. -/
def defaultRule : LR1_Rule := ⟨"", [], ""⟩

/-- `rules[i]` for a rule reference stored by index. -/
def getRule (rules : List LR1_Rule) (i : Nat) : LR1_Rule :=
  rules.getD i defaultRule

/-! ## FIRST-set computation (`LR1.calcFirst`) -/

/-- FIRST map: non-terminal identifier to its FIRST set.  The source uses a
string-keyed object of sets; keys never initialised behave as the empty set
(`calcFirst` initialises every left-hand side before the loop). -/
abbrev FirstMap := String → StrSet

/-- Initial FIRST map: every set empty. -/
def firstInit : FirstMap := fun _ => []

/-- Pointwise update of a FIRST map. -/
def updF (f : FirstMap) (k : String) (v : StrSet) : FirstMap :=
  fun x => if x = k then v else f x

/-- One rule of the inner loop of `calcFirst`: for `x = y ...` union
`first(y)` into `first(x)`, for `x = "y" ...` add `"y"` to `first(x)`;
`changed` records whether the pass grew any set. -/
def firstStep (f : FirstMap) (changed : Bool) (rule : LR1_Rule) :
    FirstMap × Bool :=
  match rule.rhs with
  | [] => (f, changed)
  | rhs0 :: _ =>
    if rhs0.type = LR1_RuleItemType.NonTerminal then
      let n := (f rule.lhs).length
      let merged := StrSet.union (f rule.lhs) (f rhs0.value)
      (updF f rule.lhs merged, changed || decide (n < merged.length))
    else
      let changed' := changed || !((f rule.lhs).contains rhs0.value)
      (updF f rule.lhs (StrSet.add (f rule.lhs) rhs0.value), changed')

/-- One full pass of the `do ... while (changed)` loop over all rules. -/
def firstPass (rules : List LR1_Rule) (f : FirstMap) : FirstMap × Bool :=
  rules.foldl (fun p r => firstStep p.1 p.2 r) (f, false)

/-- The fixed-point iteration of `calcFirst`, with fuel. -/
def firstIter (rules : List LR1_Rule) : Nat → FirstMap → FirstMap
  | 0, f => f
  | fuel + 1, f =>
    let p := firstPass rules f
    if p.2 then firstIter rules fuel p.1 else p.1

/-- Left-hand sides occurring in the grammar (each once). -/
def firstKeys (rules : List LR1_Rule) : List String :=
  (rules.map (·.lhs)).dedup

/-- Terminal symbols that can ever enter a FIRST set: the terminals standing
leftmost on some right-hand side. -/
def firstCandidates (rules : List LR1_Rule) : List String :=
  rules.filterMap (fun r =>
    match r.rhs with
    | x :: _ => if x.type = LR1_RuleItemType.Terminal then some x.value else none
    | [] => none)

/-- Fuel sufficient for the FIRST fixed point: total capacity of all FIRST
sets plus one pass to observe stability. -/
def firstBound (rules : List LR1_Rule) : Nat :=
  (firstKeys rules).length * (firstCandidates rules).dedup.length + 1

/-- `LR1.calcFirst`: fixed-point computation of the FIRST sets. -/
def LR1.calcFirst (rules : List LR1_Rule) : FirstMap :=
  firstIter rules (firstBound rules) firstInit

/-- Total number of FIRST-set elements over all left-hand sides; the measure
that grows on every changing pass. -/
def totalFirstSize (rules : List LR1_Rule) (f : FirstMap) : Nat :=
  ((firstKeys rules).map (fun k => (f k).length)).sum

/-- Invariant of the FIRST iteration: every set is duplicate-free and holds
only leftmost-terminal symbols of the grammar. -/
def FirstInv (rules : List LR1_Rule) (f : FirstMap) : Prop :=
  ∀ k, (f k).Nodup ∧ ∀ x ∈ f k, x ∈ firstCandidates rules

/-- The grammar invariant checked at the start of `calcTable`: every
non-terminal on a right-hand side is the left-hand side of some rule. -/
def definedNTs (rules : List LR1_Rule) : Prop :=
  ∀ r ∈ rules, ∀ it ∈ r.rhs, it.type = LR1_RuleItemType.NonTerminal →
    it.value ∈ rules.map (·.lhs)

/-- Example grammar `s = t; t = "a";` (as produced by `parseRules`),
used to witness the FIRST-set theorems on a concrete input. -/
def Gfirst : List LR1_Rule :=
  [⟨"s", [⟨LR1_RuleItemType.NonTerminal, "t"⟩], ""⟩,
   ⟨"t", [⟨LR1_RuleItemType.Terminal, ":a"⟩], ""⟩]

/-! ## LR(1) items and states (`lr1state.ts`) -/

/-- `LR1_StateItem`: an item of CLOSURE_1.  The `rule` object reference of
the source is stored as the rule's index in the rules list (see header). -/
structure LR1_StateItem where
  pos : Nat
  lookAheadSet : StrSet
  ruleIdx : Nat
deriving DecidableEq

/-- `LR1_StateItem.compareLookAhead`: equal size and every element of the
given set contained in the item's own lookahead set. -/
def LR1_StateItem.compareLookAhead (i : LR1_StateItem) (l : StrSet) : Bool :=
  if i.lookAheadSet.length ≠ l.length then false
  else l.all (fun li => i.lookAheadSet.contains li)

/-- `LR1_StateItem.equal`: position, rule reference and lookahead set. -/
def LR1_StateItem.equal (a b : LR1_StateItem) : Bool :=
  if a.pos ≠ b.pos then false
  else if a.ruleIdx ≠ b.ruleIdx then false
  else a.compareLookAhead b.lookAheadSet

/-- `LR1_State`: the CLOSURE_1 item set (an array in the source).  The edge
lists of the source live in the automaton arena (`StateRec` below). -/
structure LR1_State where
  itemSet : List LR1_StateItem
deriving DecidableEq

/-- Loop body of `LR1_State.addItem`: scan for an item with the same
position and rule; on a hit, merge the lookahead sets into it.  Returns the
updated list and the found-flag. -/
def addItemAux : List LR1_StateItem → LR1_StateItem →
    List LR1_StateItem × Bool
  | [], _ => ([], false)
  | i :: rest, n =>
    if i.pos = n.pos ∧ i.ruleIdx = n.ruleIdx then
      ({ i with lookAheadSet := StrSet.union i.lookAheadSet n.lookAheadSet }
        :: rest, true)
    else
      let p := addItemAux rest n
      (i :: p.1, p.2)

/-- `LR1_State.addItem`: add an item, merging lookaheads with a core-equal
item if present.  Returns `true` iff the number of items increased. -/
def LR1_State.addItem (s : LR1_State) (newItem : LR1_StateItem) :
    LR1_State × Bool :=
  let p := addItemAux s.itemSet newItem
  if p.2 then (⟨p.1⟩, false) else (⟨p.1 ++ [newItem]⟩, true)

/-- `LR1_State.equal`: same number of items and every item of the receiver
found (via `LR1_StateItem.equal`) among the other state's items. -/
def LR1_State.equal (a b : LR1_State) : Bool :=
  (a.itemSet.length == b.itemSet.length) &&
    a.itemSet.all (fun x => b.itemSet.any (fun y => x.equal y))

/-- The (rule, dot position) cores of an item list. -/
def cores (items : List LR1_StateItem) : List (Nat × Nat) :=
  items.map (fun i => (i.ruleIdx, i.pos))

/-- Core uniqueness: no two items of the list share (rule, position). -/
def CoresNodup (items : List LR1_StateItem) : Prop := (cores items).Nodup

/-! ## Closure and successor construction (`LR1_State.calcItemSet`) -/

/-- Generator-time error surface: the `LR1Error` throws of the source
(`emptyGrammar`, `undefinedNT`, `reduceReduce`), the `process.exit(-1)`
branches (`fatalExit`), and exhausted fuel (`noFuel`, an artefact of the
shallow embedding of the source's unbounded loops). -/
inductive GenError where
  | emptyGrammar
  | undefinedNT (value : String)
  | reduceReduce (r1 r2 : Nat)
  | fatalExit
  | noFuel
deriving DecidableEq

/-- Items contributed by one closure item `[x → a . y b, L]` with `y`
non-terminal: every rule `y → c` as `[y → . c, look]`, where `look` is the
terminal after `y`, or FIRST of the non-terminal after `y`, or `L` when `y`
ends the right-hand side. -/
def closureItemNew (rules : List LR1_Rule) (first : FirstMap)
    (item : LR1_StateItem) : List LR1_StateItem :=
  let rule := getRule rules item.ruleIdx
  match rule.rhs.get? item.pos with
  | none => []
  | some x =>
    if x.type = LR1_RuleItemType.NonTerminal then
      (List.range rules.length).filterMap (fun j =>
        if (getRule rules j).lhs = x.value then
          some { pos := 0, ruleIdx := j,
                 lookAheadSet :=
                   match rule.rhs.get? (item.pos + 1) with
                   | some b =>
                     if b.type = LR1_RuleItemType.Terminal then [b.value]
                     else first b.value
                   | none => item.lookAheadSet }
        else none)
    else []

/-- One pass of the closure loop: collect `newItems` from a snapshot of the
item set, then `addItem` each of them. -/
def closurePass (rules : List LR1_Rule) (first : FirstMap)
    (items : List LR1_StateItem) : List LR1_StateItem :=
  (items.flatMap (closureItemNew rules first)).foldl
    (fun acc it => ((LR1_State.mk acc).addItem it).1.itemSet) items

/-- The `do ... while (change)` closure loop, with fuel; the loop repeats
while the item count grew. -/
def closureIter (rules : List LR1_Rule) (first : FirstMap) :
    Nat → List LR1_StateItem → Option (List LR1_StateItem)
  | 0, _ => none
  | fuel + 1, items =>
    let items' := closurePass rules first items
    if items.length < items'.length then closureIter rules first fuel items'
    else some items'

/-- The outgoing symbol values of the given type (the sets `t` and `nt` of
the source; each set receives only symbols of its own type, so collecting
them in separate passes preserves contents and order). -/
def successorSymbols (rules : List LR1_Rule) (items : List LR1_StateItem)
    (ty : LR1_RuleItemType) : StrSet :=
  items.foldl (fun acc item =>
    match (getRule rules item.ruleIdx).rhs.get? item.pos with
    | some x => if x.type = ty then StrSet.add acc x.value else acc
    | none => acc) []

/-- Loop body of successor seeding: if the symbol right of the dot matches,
advance a clone of the item past it and `addItem` it into the tentative
successor; `addItem` returning `false` is the `process.exit(-1)` branch. -/
def seedStep (rules : List LR1_Rule) (ty : LR1_RuleItemType) (v : String)
    (si : LR1_State) (item : LR1_StateItem) : Except GenError LR1_State :=
  match (getRule rules item.ruleIdx).rhs.get? item.pos with
  | some x =>
    if x.type = ty ∧ x.value = v then
      let p := si.addItem { item with pos := item.pos + 1 }
      if p.2 then Except.ok p.1 else Except.error GenError.fatalExit
    else Except.ok si
  | none => Except.ok si

/-- Build the tentative successor state reached on symbol `v`. -/
def seedSuccessor (rules : List LR1_Rule) (ty : LR1_RuleItemType)
    (v : String) (items : List LR1_StateItem) : Except GenError LR1_State :=
  items.foldlM (seedStep rules ty v) (LR1_State.mk [])

/-- Build all tentative successors for the listed symbol values. -/
def buildSuccessors (rules : List LR1_Rule) (ty : LR1_RuleItemType)
    (closed : List LR1_StateItem) :
    StrSet → Except GenError (List (LR1_RuleItem × LR1_State))
  | [] => Except.ok []
  | v :: vs =>
    match seedSuccessor rules ty v closed with
    | Except.error e => Except.error e
    | Except.ok si =>
      match buildSuccessors rules ty closed vs with
      | Except.error e => Except.error e
      | Except.ok rest => Except.ok ((⟨ty, v⟩, si) :: rest)

/-- `LR1_State.calcItemSet`: compute CLOSURE_1 of the state and create the
tentative successor states with their edge labels, terminal symbols first,
then non-terminals. -/
def LR1_State.calcItemSet (rules : List LR1_Rule) (first : FirstMap)
    (fuel : Nat) (s : LR1_State) :
    Except GenError (LR1_State × List (LR1_RuleItem × LR1_State)) :=
  match closureIter rules first fuel s.itemSet with
  | none => Except.error GenError.noFuel
  | some closed =>
    match buildSuccessors rules LR1_RuleItemType.Terminal closed
        (successorSymbols rules closed LR1_RuleItemType.Terminal) with
    | Except.error e => Except.error e
    | Except.ok ts =>
      match buildSuccessors rules LR1_RuleItemType.NonTerminal closed
          (successorSymbols rules closed LR1_RuleItemType.NonTerminal) with
      | Except.error e => Except.error e
      | Except.ok nts => Except.ok (LR1_State.mk closed, ts ++ nts)

/-- The condition of `seedStep`, as a predicate on an item core. -/
def seedMatches (rules : List LR1_Rule) (ty : LR1_RuleItemType) (v : String)
    (c : Nat × Nat) : Bool :=
  match (getRule rules c.1).rhs.get? c.2 with
  | some x => decide (x.type = ty ∧ x.value = v)
  | none => false

/-! ## The automaton arena and the state worklist (`LR1.calcTable`) -/

/-- An admitted state of the automaton: its item set plus its outgoing edge
slots (label, destination index).  A slot's destination is written when the
tentative successor reached over it is itself admitted or merged (the source
shares edge objects between the creator's `outEdges` and the destination's
`inEdges` and rewrites `dest` on merging; see the header). -/
structure StateRec where
  state : LR1_State
  outEdges : List (LR1_RuleItem × Option Nat)
deriving DecidableEq

/-- A tentative state awaiting processing: its seed item set and the edge
slot (creator index, slot position) pointing at it.  `none` only for the
initial state.  A tentative state has exactly one incoming edge: edges are
created only at `calcItemSet` time, one per successor. -/
structure Pending where
  state : LR1_State
  inEdge : Option (Nat × Nat)
deriving DecidableEq

/-- Update the element at an index (no-op when out of range). -/
def updateAtIdx {α : Type} : List α → Nat → (α → α) → List α
  | [], _, _ => []
  | a :: rest, 0, f => f a :: rest
  | a :: rest, j + 1, f => a :: updateAtIdx rest j f

/-- Write the destination state index into the given edge slot (the source
mutates the shared edge object's `dest`). -/
def resolveEdge (states : List StateRec) (e : Option (Nat × Nat))
    (dest : Nat) : List StateRec :=
  match e with
  | none => states
  | some (c, slot) =>
    updateAtIdx states c (fun st =>
      { st with outEdges :=
          updateAtIdx st.outEdges slot (fun ed => (ed.1, some dest)) })

/-- The search loop of `LR1.addState`: index of the first admitted state
`s` with `s.equal(sNew)`. -/
def findEqualIdx (states : List StateRec) (sNew : LR1_State) : Option Nat :=
  states.findIdx? (fun r => r.state.equal sNew)

/-- `LR1.addState` on the bare state list: admit the state unless an equal
one exists; returns the state list and whether the state count increased.
(In the worklist loop below the same check is performed by `findEqualIdx`,
together with the edge bookkeeping of the merge branch.) -/
def LR1.addState (states : List LR1_State) (sNew : LR1_State) :
    List LR1_State × Bool :=
  if states.any (fun s => s.equal sNew) then (states, false)
  else (states ++ [sNew], true)

/-- The worklist loop of `calcTable`: pop the last tentative state, close it
(`calcItemSet`), then admit it (assigning the next index and enqueueing its
successors) or merge it into the equal admitted state (redirecting its
incoming edge there and discarding its successors). -/
def buildStates (rules : List LR1_Rule) (first : FirstMap) (cfuel : Nat) :
    Nat → List StateRec → List Pending → List StateRec × Option GenError
  | _, states, [] => (states, none)
  | 0, states, _ :: _ => (states, some GenError.noFuel)
  | fuel + 1, states, Q =>
    match Q.getLast? with
    | none => (states, none)
    | some q =>
      let Qrest := Q.dropLast
      match LR1_State.calcItemSet rules first cfuel q.state with
      | Except.error e => (states, some e)
      | Except.ok (closed, succs) =>
        match findEqualIdx states closed with
        | some j =>
          buildStates rules first cfuel fuel (resolveEdge states q.inEdge j)
            Qrest
        | none =>
          let n := states.length
          let states' := resolveEdge states q.inEdge n ++
            [⟨closed, succs.map (fun ls => (ls.1, none))⟩]
          let newQ := Qrest ++ (succs.enum.map
            (fun p => (⟨p.2.2, some (n, p.1)⟩ : Pending)))
          buildStates rules first cfuel fuel states' newQ

/-! ## Table types and the table builder (`lr1table.ts`, `LR1.calcTable`) -/

/-- `LR1_TableEntry`: `shift` flag (`false` = reduce) and value (destination
state index for shift and goto, rule index for reduce). -/
structure LR1_TableEntry where
  shift : Bool
  value : Nat
deriving DecidableEq

/-- A table row: insertion-ordered ACTION and GOTO maps. -/
structure LR1_TableRow where
  actionEntries : List (String × LR1_TableEntry)
  gotoEntries : List (String × LR1_TableEntry)
deriving DecidableEq

/-- The parse table: one row per state. -/
structure LR1_Table where
  rows : List LR1_TableRow
deriving DecidableEq

/-- Object-map lookup (`map[key]`, `key in map`). -/
def lookupEntry (m : List (String × LR1_TableEntry)) (k : String) :
    Option LR1_TableEntry :=
  (m.find? (fun p => decide (p.1 = k))).map (·.2)

/-- Guarded insertion into a row map: a present key hits the
`process.exit(-1)` branch of `calcTable`. -/
def tryInsertEntry (m : List (String × LR1_TableEntry)) (k : String)
    (v : LR1_TableEntry) :
    Except GenError (List (String × LR1_TableEntry)) :=
  if (lookupEntry m k).isSome then Except.error GenError.fatalExit
  else Except.ok (m ++ [(k, v)])

/-- One entry of `calcReduceEntries`: a present key is the reduce/reduce
conflict throw, reporting the existing and the new rule index.  (The entry
stored in the dictionary keeps the constructor default `shift = true`; only
its `value` is read later.) -/
def addReduceEntry (entries : List (String × LR1_TableEntry))
    (terminal : String) (ruleIdx : Nat) :
    Except GenError (List (String × LR1_TableEntry)) :=
  match lookupEntry entries terminal with
  | some ex => Except.error (GenError.reduceReduce ex.value ruleIdx)
  | none => Except.ok (entries ++ [(terminal, ⟨true, ruleIdx⟩)])

/-- `LR1_State.calcReduceEntries`: for every completed item, one reduce
entry per lookahead terminal. -/
def LR1_State.calcReduceEntries (rules : List LR1_Rule) (s : LR1_State) :
    Except GenError (List (String × LR1_TableEntry)) :=
  s.itemSet.foldlM (fun entries item =>
    if item.pos = (getRule rules item.ruleIdx).rhs.length then
      item.lookAheadSet.foldlM (fun es terminal =>
        addReduceEntry es terminal item.ruleIdx) entries
    else pure entries) []

/-- Build one table row from an admitted state: shift and goto entries from
the outgoing edges, then the reduce entries.  On error the partially filled
row is reported along with it (the source has already pushed the row object
into the table before filling it). -/
def buildRow (rules : List LR1_Rule) (st : StateRec) :
    Except (GenError × LR1_TableRow) LR1_TableRow :=
  match st.outEdges.foldlM (fun (row : LR1_TableRow) e =>
      let entry : LR1_TableEntry := ⟨true, e.2.getD 0⟩
      if e.1.type = LR1_RuleItemType.Terminal then
        match tryInsertEntry row.actionEntries e.1.value entry with
        | Except.error g => Except.error (g, row)
        | Except.ok m => Except.ok { row with actionEntries := m }
      else
        match tryInsertEntry row.gotoEntries e.1.value entry with
        | Except.error g => Except.error (g, row)
        | Except.ok m => Except.ok { row with gotoEntries := m })
      (⟨[], []⟩ : LR1_TableRow) with
  | Except.error e => Except.error e
  | Except.ok row =>
    match st.state.calcReduceEntries rules with
    | Except.error g => Except.error (g, row)
    | Except.ok reduceEntries =>
      reduceEntries.foldlM (fun (row : LR1_TableRow) p =>
        match tryInsertEntry row.actionEntries p.1 ⟨false, p.2.value⟩ with
        | Except.error g => Except.error (g, row)
        | Except.ok m => Except.ok { row with actionEntries := m }) row

/-- Build all rows in state order; on an error the rows built so far plus
the partially filled row remain (they were pushed before the throw). -/
def buildRows (rules : List LR1_Rule) :
    List StateRec → List LR1_TableRow × Option GenError
  | [] => ([], none)
  | st :: rest =>
    match buildRow rules st with
    | Except.error (g, row) => ([row], some g)
    | Except.ok row =>
      let p := buildRows rules rest
      (row :: p.1, p.2)

/-- The fields of the `LR1` object touched by table construction. -/
structure LR1Rec where
  rules : List LR1_Rule
  first : FirstMap
  states : List StateRec
  table : Option LR1_Table

/-- The undefined-non-terminal check of `calcTable`: first right-hand-side
non-terminal that is no rule's left-hand side, in check order. -/
def findUndefinedNT (rules : List LR1_Rule) : Option String :=
  let nt := rules.foldl (fun acc r => StrSet.add acc r.lhs) []
  rules.findSome? (fun r => r.rhs.findSome? (fun item =>
    if item.type = LR1_RuleItemType.NonTerminal ∧ ¬(nt.contains item.value)
    then some item.value else none))

/-- Fuel sufficient for every closure computation: one more than the total
number of distinct item cores of the grammar. -/
def closureFuelBound (rules : List LR1_Rule) : Nat :=
  (rules.map (fun r => r.rhs.length + 1)).sum + 1

/-- `LR1.calcTable`: validity checks, FIRST sets, automaton worklist, then
the table rows.  The table field is assigned before row construction, so a
row-construction error leaves a partially built table behind; the earlier
errors leave the field untouched.  `fuel` bounds the worklist. -/
def LR1.calcTable (fuel : Nat) (lr : LR1Rec) : LR1Rec × Option GenError :=
  if lr.rules.isEmpty then (lr, some GenError.emptyGrammar)
  else
    match findUndefinedNT lr.rules with
    | some v => (lr, some (GenError.undefinedNT v))
    | none =>
      let first := LR1.calcFirst lr.rules
      let initState := ((LR1_State.mk []).addItem ⟨0, ["END"], 0⟩).1
      let p := buildStates lr.rules first (closureFuelBound lr.rules) fuel []
        [⟨initState, none⟩]
      let lr2 := { lr with first := first, states := p.1 }
      match p.2 with
      | some e => (lr2, some e)
      | none =>
        let q := buildRows lr.rules p.1
        ({ lr2 with table := some ⟨q.1⟩ }, q.2)

/-- A fresh `LR1` object holding the given rules. -/
def lrFresh (rules : List LR1_Rule) : LR1Rec := ⟨rules, firstInit, [], none⟩

/-- Grammar `z = s; s = "a"; s = b; b = "a";`: the state reached on `"a"`
holds the two completed items `[s = "a" .]` and `[b = "a" .]`, both with
lookahead `END` — a reduce/reduce conflict thrown during row construction. -/
def Grr : List LR1_Rule :=
  [⟨"z", [⟨LR1_RuleItemType.NonTerminal, "s"⟩], ""⟩,
   ⟨"s", [⟨LR1_RuleItemType.Terminal, ":a"⟩], ""⟩,
   ⟨"s", [⟨LR1_RuleItemType.NonTerminal, "b"⟩], ""⟩,
   ⟨"b", [⟨LR1_RuleItemType.Terminal, ":a"⟩], ""⟩]

/-- Grammar `z = s s; s = "a"; s = "a" "a";`: the state reached on `"a"`
both shifts `"a"` and reduces `s = "a"` with lookahead `":a"` — a
shift/reduce collision that hits the `process.exit(-1)` branch. -/
def Gsr : List LR1_Rule :=
  [⟨"z", [⟨LR1_RuleItemType.NonTerminal, "s"⟩,
          ⟨LR1_RuleItemType.NonTerminal, "s"⟩], ""⟩,
   ⟨"s", [⟨LR1_RuleItemType.Terminal, ":a"⟩], ""⟩,
   ⟨"s", [⟨LR1_RuleItemType.Terminal, ":a"⟩,
          ⟨LR1_RuleItemType.Terminal, ":a"⟩], ""⟩]

/-- Per-item duplicate-freeness of the lookahead sets. -/
def LooksNodup (items : List LR1_StateItem) : Prop :=
  ∀ i ∈ items, i.lookAheadSet.Nodup

/-- Well-formedness of a state as maintained by the construction: cores are
unique and lookahead sets duplicate-free. -/
def WfState (s : LR1_State) : Prop :=
  CoresNodup s.itemSet ∧ LooksNodup s.itemSet

/-- Pairwise distinctness of admitted states under the source's `equal`,
in both argument orders. -/
def StatesDistinct (states : List LR1_State) : Prop :=
  List.Pairwise (fun a b => a.equal b = false ∧ b.equal a = false) states

/-! ## Parser runtime (`LR1.parse`) -/

/-- Token type tags of the external lexer collaborator.  Modelled from the
spec's token source contract (§6.2): the five token classes, the terminal
(literal), delimiter and identifier tags, and end-of-input; the tag's
string value doubles as the token-class key used in the action map. -/
inductive LexerTokenType where
  | TER
  | DEL
  | ID
  | INT
  | REAL
  | HEX
  | STR
  | END
deriving DecidableEq

/-- The string value of a token type tag (the enum value used as an
action-map key by `parse`). -/
def LexerTokenType.key : LexerTokenType → String
  | LexerTokenType.TER => "TER"
  | LexerTokenType.DEL => "DEL"
  | LexerTokenType.ID => "ID"
  | LexerTokenType.INT => "INT"
  | LexerTokenType.REAL => "REAL"
  | LexerTokenType.HEX => "HEX"
  | LexerTokenType.STR => "STR"
  | LexerTokenType.END => "END"

/-- A token of the external lexer: type tag and lexeme (`token` field).
Modelled from the spec's token source contract; the numeric value carried
by numeric tokens plays no role in dispatch and is omitted. -/
structure LexerToken where
  type : LexerTokenType
  token : String
deriving DecidableEq

/-- The token source: a token list with a cursor.  Modelled from the spec
(§6.2): current token, advance, end-of-input predicate; reading past the
end yields the END token. -/
structure Lexer where
  tokens : List LexerToken
  pos : Nat
deriving DecidableEq

/-- Current token. -/
def Lexer.getToken (lx : Lexer) : LexerToken :=
  lx.tokens.getD lx.pos ⟨LexerTokenType.END, "$"⟩

/-- Advance the token source. -/
def Lexer.next (lx : Lexer) : Lexer := { lx with pos := lx.pos + 1 }

/-- End-of-input predicate. -/
def Lexer.isEND (lx : Lexer) : Bool :=
  lx.getToken.type = LexerTokenType.END

/-- Parse-stack slots: state numbers, shifted tokens, pushed non-terminal
identifiers (the source mixes all three in one array). -/
inductive StackElem where
  | stateIdx (n : Nat)
  | tok (t : LexerToken)
  | sym (s : String)
deriving DecidableEq

/-- Parse-time error surface: the errors `parse` raises through the lexer's
error channel, plus `invariantStuck` for situations the source reaches only
through unsound casts (a non-number where a state index is read, a missing
rule or goto entry), where the JavaScript fails with a `TypeError`. -/
inductive PError where
  | unexpectedToken (lexeme : String)
  | unimplementedCallback (id : String)
  | prematureEnd
  | invariantStuck
deriving DecidableEq

/-- State of one parse: the stack, the token source, and the trace of
callback invocations (callback id, the `terminals` argument; the collected
slots are recorded as stack elements — under the parser's stack discipline
they are the shifted tokens). -/
structure ParseState where
  stack : List StackElem
  lexer : Lexer
  trace : List (String × List StackElem)
deriving DecidableEq

/-- Result of one iteration of the parse loop: continue, accept (`return`),
or an error raised through the lexer. -/
inductive StepRes where
  | cont (st : ParseState)
  | done (st : ParseState)
  | err (e : PError) (st : ParseState)
deriving DecidableEq

/-- The parse state carried by a step result. -/
def stepState : StepRes → ParseState
  | StepRes.cont st => st
  | StepRes.done st => st
  | StepRes.err _ st => st

/-- The action lookup of the parse loop: for terminal, delimiter and
identifier tokens try the key `":" + lexeme` first; on a miss (and for all
other token types) fall back to the token-class key. -/
def findActionEntry (row : LR1_TableRow) (tk : LexerToken) :
    Option LR1_TableEntry :=
  let e1 := if tk.type = LexerTokenType.TER ∨ tk.type = LexerTokenType.DEL ∨
      tk.type = LexerTokenType.ID
    then lookupEntry row.actionEntries (":" ++ tk.token) else none
  match e1 with
  | some e => some e
  | none => lookupEntry row.actionEntries tk.type.key

/-- One iteration of the parse loop of `LR1.parse`: look up the action for
the current token; shift, or reduce (pop `2·|rhs|` slots, invoke the
callback, then either finish on the root rule or push the goto state). -/
def parseStep (rules : List LR1_Rule) (table : LR1_Table)
    (cbs : List String) (ps : ParseState) : StepRes :=
  match ps.stack.getLast? with
  | some (StackElem.stateIdx state) =>
    match table.rows.get? state with
    | none => StepRes.err PError.invariantStuck ps
    | some row =>
      let tk := ps.lexer.getToken
      match findActionEntry row tk with
      | none => StepRes.err (PError.unexpectedToken tk.token) ps
      | some entry =>
        if entry.shift then
          StepRes.cont { ps with
            stack := ps.stack ++
              [StackElem.tok tk, StackElem.stateIdx entry.value],
            lexer := ps.lexer.next }
        else
          let rootRule := entry.value = 0
          match rules.get? entry.value with
          | none => StepRes.err PError.invariantStuck ps
          | some rule =>
            let k := rule.rhs.length
            let items := ps.stack.drop (ps.stack.length - 2 * k)
            let stack1 := ps.stack.take (ps.stack.length - 2 * k)
            if rule.callBackId ≠ "" ∧ ¬(cbs.contains rule.callBackId) then
              StepRes.err (PError.unimplementedCallback rule.callBackId)
                { ps with stack := stack1 }
            else
              let trace' := if rule.callBackId ≠ "" then
                  ps.trace ++ [(rule.callBackId,
                    (List.range (items.length / 2)).filterMap (fun i =>
                      match rule.rhs.get? i with
                      | some it =>
                        if it.type = LR1_RuleItemType.Terminal then
                          some (items.getD (2 * i) (StackElem.stateIdx 0))
                        else none
                      | none => none))]
                else ps.trace
              if rootRule then
                if ps.lexer.isEND = false then
                  StepRes.err PError.prematureEnd
                    { stack := stack1, lexer := ps.lexer, trace := trace' }
                else
                  StepRes.done
                    { stack := stack1, lexer := ps.lexer, trace := trace' }
              else
                match stack1.getLast? with
                | some (StackElem.stateIdx s2) =>
                  match table.rows.get? s2 with
                  | none => StepRes.err PError.invariantStuck
                      { stack := stack1, lexer := ps.lexer, trace := trace' }
                  | some row2 =>
                    match lookupEntry row2.gotoEntries rule.lhs with
                    | none => StepRes.err PError.invariantStuck
                        { stack := stack1, lexer := ps.lexer, trace := trace' }
                    | some g =>
                      StepRes.cont
                        { stack := stack1 ++ [StackElem.sym rule.lhs,
                            StackElem.stateIdx g.value],
                          lexer := ps.lexer, trace := trace' }
                | _ => StepRes.err PError.invariantStuck
                    { stack := stack1, lexer := ps.lexer, trace := trace' }
  | _ => StepRes.err PError.invariantStuck ps

/-- Concrete inputs witnessing the reduce-step claim: grammar
`z = s; s = ":a" -> cb;`, a table whose state 2 reduces rule 1 on `":b"`,
and a stack holding the shifted `"a"`. -/
def wit6rules : List LR1_Rule :=
  [⟨"z", [⟨LR1_RuleItemType.NonTerminal, "s"⟩], ""⟩,
   ⟨"s", [⟨LR1_RuleItemType.Terminal, ":a"⟩], "cb"⟩]

/-- Table for the reduce-step witness. -/
def wit6table : LR1_Table :=
  ⟨[⟨[], []⟩, ⟨[], []⟩, ⟨[(":b", ⟨false, 1⟩)], []⟩]⟩

/-- Parse state for the reduce-step witness. -/
def wit6ps : ParseState :=
  ⟨[StackElem.stateIdx 0, StackElem.tok ⟨LexerTokenType.TER, "a"⟩,
    StackElem.stateIdx 2], ⟨[⟨LexerTokenType.TER, "b"⟩], 0⟩, []⟩

-- ===================================================================
-- THEOREMS
-- ===================================================================

/-! ## Basic facts about `StrSet` -/

theorem StrSet.add_eq_append (l : StrSet) (x : String) :
    StrSet.add l x = l ∨ StrSet.add l x = l ++ [x] := by
  unfold StrSet.add; split <;> simp

theorem StrSet.exists_union_append (a b : StrSet) :
    ∃ t, StrSet.union a b = a ++ t := by
  induction b generalizing a with
  | nil => exact ⟨[], by simp [StrSet.union]⟩
  | cons x xs ih =>
    show ∃ t, StrSet.union (StrSet.add a x) xs = a ++ t
    rcases StrSet.add_eq_append a x with h | h
    · rw [h]; exact ih a
    · rw [h]
      obtain ⟨t, ht⟩ := ih (a ++ [x])
      exact ⟨[x] ++ t, by simpa using ht⟩

theorem StrSet.length_le_union (a b : StrSet) :
    a.length ≤ (StrSet.union a b).length := by
  obtain ⟨t, ht⟩ := StrSet.exists_union_append a b
  simp [ht]

theorem StrSet.mem_add_of_mem {a : StrSet} {y : String} (x : String)
    (h : y ∈ a) : y ∈ StrSet.add a x := by
  unfold StrSet.add; split <;> simp [h]

theorem StrSet.mem_add_self (a : StrSet) (x : String) : x ∈ StrSet.add a x := by
  unfold StrSet.add; split
  · next h => simpa using h
  · simp

theorem StrSet.mem_add_iff {a : StrSet} {x y : String} :
    y ∈ StrSet.add a x ↔ y ∈ a ∨ y = x := by
  constructor
  · intro h
    unfold StrSet.add at h
    split at h
    · exact Or.inl h
    · simpa using h
  · rintro (h | rfl)
    · exact StrSet.mem_add_of_mem x h
    · exact StrSet.mem_add_self a y

theorem StrSet.mem_union_iff {a b : StrSet} {y : String} :
    y ∈ StrSet.union a b ↔ y ∈ a ∨ y ∈ b := by
  induction b generalizing a with
  | nil => simp [StrSet.union]
  | cons x xs ih =>
    show y ∈ StrSet.union (StrSet.add a x) xs ↔ _
    rw [ih, StrSet.mem_add_iff]
    simp [or_assoc]

theorem StrSet.add_nodup {a : StrSet} (h : a.Nodup) (x : String) :
    (StrSet.add a x).Nodup := by
  unfold StrSet.add
  split
  · exact h
  · next hc =>
    have hc' : x ∉ a := by simpa using hc
    simpa [List.nodup_append] using ⟨h, hc'⟩

theorem StrSet.union_nodup {a : StrSet} (h : a.Nodup) (b : StrSet) :
    (StrSet.union a b).Nodup := by
  induction b generalizing a with
  | nil => exact h
  | cons x xs ih => exact ih (StrSet.add_nodup h x)

theorem StrSet.union_eq_of_length {a b : StrSet}
    (h : (StrSet.union a b).length = a.length) : StrSet.union a b = a := by
  obtain ⟨t, ht⟩ := StrSet.exists_union_append a b
  rw [ht] at h ⊢
  have hlen : t.length = 0 := by
    simp only [List.length_append] at h
    omega
  have : t = [] := List.eq_nil_of_length_eq_zero hlen
  simp [this]

theorem StrSet.subset_of_union_length {a b : StrSet}
    (h : (StrSet.union a b).length = a.length) : ∀ y ∈ b, y ∈ a := by
  intro y hy
  have := StrSet.union_eq_of_length h
  have hm : y ∈ StrSet.union a b := StrSet.mem_union_iff.mpr (Or.inr hy)
  rwa [this] at hm

/-! ## Lemmas about one step / one pass of `calcFirst` -/

theorem updF_apply_self (f : FirstMap) (k : String) (v : StrSet) :
    updF f k v k = v := by simp [updF]

theorem updF_apply_ne (f : FirstMap) {k x : String} (v : StrSet) (h : x ≠ k) :
    updF f k v x = f x := by simp [updF, h]

theorem updF_self (f : FirstMap) (k : String) : updF f k (f k) = f := by
  funext x
  by_cases h : x = k <;> simp [updF, h]

theorem firstStep_grow (f : FirstMap) (ch : Bool) (r : LR1_Rule) (k : String) :
    ∃ t, (firstStep f ch r).1 k = f k ++ t := by
  obtain ⟨lhs, rhs, cb⟩ := r
  cases rhs with
  | nil => exact ⟨[], by simp [firstStep]⟩
  | cons x rest =>
    by_cases hty : x.type = LR1_RuleItemType.NonTerminal
    · by_cases hk : k = lhs
      · obtain ⟨t, ht⟩ := StrSet.exists_union_append (f lhs) (f x.value)
        refine ⟨t, ?_⟩
        simp only [firstStep, hty, if_true]
        rw [hk, updF_apply_self, ht]
      · refine ⟨[], ?_⟩
        simp only [firstStep, hty, if_true]
        rw [updF_apply_ne _ _ hk, List.append_nil]
    · by_cases hk : k = lhs
      · rcases StrSet.add_eq_append (f lhs) x.value with h | h
        · refine ⟨[], ?_⟩
          simp only [firstStep, hty, if_false]
          rw [hk, updF_apply_self, h, List.append_nil]
        · refine ⟨[x.value], ?_⟩
          simp only [firstStep, hty, if_false]
          rw [hk, updF_apply_self, h]
      · refine ⟨[], ?_⟩
        simp only [firstStep, hty, if_false]
        rw [updF_apply_ne _ _ hk, List.append_nil]

theorem firstStep_changed_mono (f : FirstMap) (r : LR1_Rule) :
    (firstStep f true r).2 = true := by
  unfold firstStep
  cases r.rhs with
  | nil => rfl
  | cons x rest => by_cases hty : x.type = LR1_RuleItemType.NonTerminal <;>
      simp [hty]

theorem firstStep_not_changed {f : FirstMap} {ch : Bool} {r : LR1_Rule}
    (h : (firstStep f ch r).2 = false) :
    (firstStep f ch r).1 = f ∧ ch = false := by
  unfold firstStep at h ⊢
  cases hr : r.rhs with
  | nil => simp [hr] at h ⊢; exact h
  | cons x rest =>
    by_cases hty : x.type = LR1_RuleItemType.NonTerminal
    · simp only [hr, hty, if_true] at h ⊢
      rcases Bool.or_eq_false_iff.mp h with ⟨hch, hgrow⟩
      refine ⟨?_, hch⟩
      have hle : (StrSet.union (f r.lhs) (f x.value)).length ≤ (f r.lhs).length := by
        simpa using of_decide_eq_false hgrow
      have heq : StrSet.union (f r.lhs) (f x.value) = f r.lhs :=
        StrSet.union_eq_of_length
          (Nat.le_antisymm hle (StrSet.length_le_union _ _))
      rw [heq, updF_self]
    · simp only [hr, hty, if_false] at h ⊢
      rcases Bool.or_eq_false_iff.mp h with ⟨hch, hcon⟩
      refine ⟨?_, hch⟩
      have hc : (f r.lhs).contains x.value = true := by
        cases hcc : (f r.lhs).contains x.value with
        | true => rfl
        | false => rw [hcc] at hcon; simp at hcon
      have : StrSet.add (f r.lhs) x.value = f r.lhs := by
        unfold StrSet.add; rw [hc]; simp
      rw [this, updF_self]

theorem firstFold_changed_mono (rs : List LR1_Rule) (f : FirstMap) :
    (rs.foldl (fun p r => firstStep p.1 p.2 r) (f, true)).2 = true := by
  induction rs generalizing f with
  | nil => rfl
  | cons r rs ih =>
    show (rs.foldl _ (firstStep f true r)).2 = true
    have hc : (firstStep f true r).2 = true := firstStep_changed_mono f r
    rcases hstep : firstStep f true r with ⟨g, c⟩
    rw [hstep] at hc
    simp only at hc
    subst hc
    exact ih g

theorem firstFold_grow (rs : List LR1_Rule) (f : FirstMap) (ch : Bool)
    (k : String) :
    ∃ t, (rs.foldl (fun p r => firstStep p.1 p.2 r) (f, ch)).1 k = f k ++ t := by
  induction rs generalizing f ch with
  | nil => exact ⟨[], by simp⟩
  | cons r rs ih =>
    show ∃ t, (rs.foldl _ (firstStep f ch r)).1 k = f k ++ t
    obtain ⟨t1, ht1⟩ := firstStep_grow f ch r k
    rcases hstep : firstStep f ch r with ⟨g, c⟩
    rw [hstep] at ht1
    simp only at ht1
    obtain ⟨t2, ht2⟩ := ih g c
    exact ⟨t1 ++ t2, by rw [ht2, ht1, List.append_assoc]⟩

theorem firstFold_unchanged {rs : List LR1_Rule} {f : FirstMap}
    (h : (rs.foldl (fun p r => firstStep p.1 p.2 r) (f, false)).2 = false) :
    (rs.foldl (fun p r => firstStep p.1 p.2 r) (f, false)).1 = f ∧
      ∀ r ∈ rs, (firstStep f false r).2 = false := by
  induction rs generalizing f with
  | nil => exact ⟨rfl, by simp⟩
  | cons r rs ih =>
    have hfold : (r :: rs).foldl (fun p r => firstStep p.1 p.2 r) (f, false) =
        rs.foldl (fun p r => firstStep p.1 p.2 r) (firstStep f false r) := rfl
    rcases hstep : firstStep f false r with ⟨g, c⟩
    cases c with
    | true =>
      exfalso
      rw [hfold, hstep] at h
      rw [firstFold_changed_mono rs g] at h
      exact Bool.true_eq_false.mp h
    | false =>
      have hg : g = f := by
        have := @firstStep_not_changed f false r (by rw [hstep])
        rw [hstep] at this
        exact this.1
      subst hg
      rw [hfold, hstep] at h
      obtain ⟨h1, h2⟩ := ih h
      refine ⟨by rw [hfold, hstep]; exact h1, ?_⟩
      intro r' hr'
      rcases List.mem_cons.mp hr' with rfl | hr'
      · rw [hstep]
      · exact h2 r' hr'

theorem firstStep_changed_strict {f : FirstMap} {r : LR1_Rule}
    (h : (firstStep f false r).2 = true) :
    (f r.lhs).length < ((firstStep f false r).1 r.lhs).length := by
  obtain ⟨lhs, rhs, cb⟩ := r
  cases rhs with
  | nil => simp [firstStep] at h
  | cons x rest =>
    by_cases hty : x.type = LR1_RuleItemType.NonTerminal
    · simp only [firstStep, hty, if_true, Bool.false_or] at h ⊢
      rw [updF_apply_self]
      exact of_decide_eq_true h
    · simp only [firstStep, hty, if_false, Bool.false_or] at h ⊢
      have hc : (f lhs).contains x.value = false := by
        cases hcc : (f lhs).contains x.value with
        | false => rfl
        | true => rw [hcc] at h; simp at h
      rw [updF_apply_self]
      unfold StrSet.add
      rw [hc]
      simp

theorem mapSum_le {l : List String} {u v : String → Nat}
    (h : ∀ k ∈ l, u k ≤ v k) : (l.map u).sum ≤ (l.map v).sum := by
  induction l with
  | nil => simp
  | cons a l ih =>
    simp only [List.map_cons, List.sum_cons]
    exact Nat.add_le_add (h a (List.mem_cons_self a l))
      (ih fun k hk => h k (List.mem_cons_of_mem a hk))

theorem mapSum_lt {l : List String} {u v : String → Nat}
    (h : ∀ k ∈ l, u k ≤ v k) {k0 : String} (hk : k0 ∈ l) (hs : u k0 < v k0) :
    (l.map u).sum < (l.map v).sum := by
  induction l with
  | nil => simp at hk
  | cons a l ih =>
    simp only [List.map_cons, List.sum_cons]
    rcases List.mem_cons.mp hk with rfl | hk'
    · exact Nat.add_lt_add_of_lt_of_le hs
        (mapSum_le fun k hkk => h k (List.mem_cons_of_mem _ hkk))
    · exact Nat.add_lt_add_of_le_of_lt (h a (List.mem_cons_self a l))
        (ih (fun k hkk => h k (List.mem_cons_of_mem a hkk)) hk')

theorem mapSum_le_card_mul {l : List String} {u : String → Nat} {D : Nat}
    (h : ∀ k ∈ l, u k ≤ D) : (l.map u).sum ≤ l.length * D := by
  induction l with
  | nil => simp
  | cons a l ih =>
    simp only [List.map_cons, List.sum_cons, List.length_cons, Nat.succ_mul]
    have := ih fun k hk => h k (List.mem_cons_of_mem a hk)
    have ha := h a (List.mem_cons_self a l)
    omega

theorem totalFirstSize_le_of_grow {rules : List LR1_Rule} {f g : FirstMap}
    (h : ∀ k, ∃ t, g k = f k ++ t) :
    totalFirstSize rules f ≤ totalFirstSize rules g :=
  mapSum_le fun k _ => by obtain ⟨t, ht⟩ := h k; simp [ht]

theorem totalFirstSize_lt_of_grow {rules : List LR1_Rule} {f g : FirstMap}
    (h : ∀ k, ∃ t, g k = f k ++ t) {k0 : String} (hk : k0 ∈ firstKeys rules)
    (hs : (f k0).length < (g k0).length) :
    totalFirstSize rules f < totalFirstSize rules g :=
  mapSum_lt (fun k _ => by obtain ⟨t, ht⟩ := h k; simp [ht]) hk hs

theorem firstFold_changed_strict (rules : List LR1_Rule) :
    ∀ rs : List LR1_Rule, (∀ r ∈ rs, r ∈ rules) → ∀ f : FirstMap,
    (rs.foldl (fun p r => firstStep p.1 p.2 r) (f, false)).2 = true →
    totalFirstSize rules f <
      totalFirstSize rules
        (rs.foldl (fun p r => firstStep p.1 p.2 r) (f, false)).1 := by
  intro rs
  induction rs with
  | nil => intro _ f h; simp [List.foldl] at h
  | cons r rs ih =>
    intro hsub f h
    rcases hstep : firstStep f false r with ⟨g, c⟩
    have hfold : ((r :: rs).foldl (fun p r => firstStep p.1 p.2 r) (f, false)) =
        rs.foldl (fun p r => firstStep p.1 p.2 r) (g, c) := by
      show rs.foldl _ (firstStep f false r) = _
      rw [hstep]
    cases c with
    | false =>
      have hg : g = f := by
        have h2 := @firstStep_not_changed f false r (by rw [hstep])
        rw [hstep] at h2
        exact h2.1
      subst hg
      rw [hfold] at h ⊢
      exact ih (fun r' hr' => hsub r' (List.mem_cons_of_mem r hr')) g h
    | true =>
      have hstrict : (f r.lhs).length < (g r.lhs).length := by
        have := @firstStep_changed_strict f r (by rw [hstep])
        rw [hstep] at this
        exact this
      have hgrow1 : ∀ k, ∃ t, g k = f k ++ t := fun k => by
        have := firstStep_grow f false r k
        rw [hstep] at this
        exact this
      have hk0 : r.lhs ∈ firstKeys rules := by
        have hrr : r ∈ rules := hsub r (List.mem_cons_self r rs)
        unfold firstKeys
        rw [List.mem_dedup]
        exact List.mem_map_of_mem _ hrr
      have hlt : totalFirstSize rules f < totalFirstSize rules g :=
        totalFirstSize_lt_of_grow hgrow1 hk0 hstrict
      have hle : totalFirstSize rules g ≤ totalFirstSize rules
          (rs.foldl (fun p r => firstStep p.1 p.2 r) (g, true)).1 :=
        totalFirstSize_le_of_grow (firstFold_grow rs g true)
      rw [hfold]
      exact lt_of_lt_of_le hlt hle

theorem firstStep_inv {rules : List LR1_Rule} {f : FirstMap}
    (hf : FirstInv rules f) {r : LR1_Rule} (hr : r ∈ rules) (ch : Bool) :
    FirstInv rules (firstStep f ch r).1 := by
  obtain ⟨lhs, rhs, cb⟩ := r
  cases rhs with
  | nil => simpa [firstStep] using hf
  | cons x rest =>
    by_cases hty : x.type = LR1_RuleItemType.NonTerminal
    · intro k
      simp only [firstStep, hty, if_true]
      by_cases hk : k = lhs
      · rw [hk, updF_apply_self]
        refine ⟨StrSet.union_nodup (hf lhs).1 _, ?_⟩
        intro y hy
        rcases StrSet.mem_union_iff.mp hy with h | h
        · exact (hf lhs).2 y h
        · exact (hf x.value).2 y h
      · rw [updF_apply_ne _ _ hk]
        exact hf k
    · intro k
      simp only [firstStep, hty, if_false]
      by_cases hk : k = lhs
      · rw [hk, updF_apply_self]
        have hxc : x.value ∈ firstCandidates rules := by
          unfold firstCandidates
          apply List.mem_filterMap.mpr
          refine ⟨⟨lhs, x :: rest, cb⟩, hr, ?_⟩
          have hT : x.type = LR1_RuleItemType.Terminal := by
            cases htyx : x.type with
            | Terminal => rfl
            | NonTerminal => exact absurd htyx hty
          simp [hT]
        refine ⟨StrSet.add_nodup (hf lhs).1 _, ?_⟩
        intro y hy
        rcases StrSet.mem_add_iff.mp hy with h | rfl
        · exact (hf lhs).2 y h
        · exact hxc
      · rw [updF_apply_ne _ _ hk]
        exact hf k

theorem firstFold_inv (rules : List LR1_Rule) :
    ∀ rs : List LR1_Rule, (∀ r ∈ rs, r ∈ rules) → ∀ (f : FirstMap) (ch : Bool),
    FirstInv rules f →
    FirstInv rules (rs.foldl (fun p r => firstStep p.1 p.2 r) (f, ch)).1 := by
  intro rs
  induction rs with
  | nil => intro _ f ch hf; exact hf
  | cons r rs ih =>
    intro hsub f ch hf
    rcases hstep : firstStep f ch r with ⟨g, c⟩
    have hfold : ((r :: rs).foldl (fun p r => firstStep p.1 p.2 r) (f, ch)) =
        rs.foldl (fun p r => firstStep p.1 p.2 r) (g, c) := by
      show rs.foldl _ (firstStep f ch r) = _
      rw [hstep]
    rw [hfold]
    apply ih (fun r' hr' => hsub r' (List.mem_cons_of_mem r hr')) g c
    have := firstStep_inv hf (hsub r (List.mem_cons_self r rs)) ch
    rw [hstep] at this
    exact this

theorem length_le_dedup_of_subset {l c : List String} (hn : l.Nodup)
    (hs : ∀ x ∈ l, x ∈ c) : l.length ≤ c.dedup.length := by
  have h1 : l.toFinset.card = l.length := List.toFinset_card_of_nodup hn
  have h2 : l.toFinset ⊆ c.toFinset := by
    intro x hx
    rw [List.mem_toFinset] at hx ⊢
    exact hs x hx
  calc l.length = l.toFinset.card := h1.symm
    _ ≤ c.toFinset.card := Finset.card_le_card h2
    _ = c.dedup.length := List.card_toFinset c

theorem totalFirstSize_bound {rules : List LR1_Rule} {f : FirstMap}
    (hf : FirstInv rules f) :
    totalFirstSize rules f ≤
      (firstKeys rules).length * (firstCandidates rules).dedup.length := by
  unfold totalFirstSize
  exact mapSum_le_card_mul fun k _ =>
    length_le_dedup_of_subset (hf k).1 (hf k).2

/-! ## The FIRST fixed point is reached within `firstBound` passes -/

theorem firstIter_reaches_fix (rules : List LR1_Rule) :
    ∀ (fuel : Nat) (f : FirstMap), FirstInv rules f →
    (firstKeys rules).length * (firstCandidates rules).dedup.length + 1 ≤
      fuel + totalFirstSize rules f →
    firstPass rules (firstIter rules fuel f) =
      (firstIter rules fuel f, false) := by
  intro fuel
  induction fuel with
  | zero =>
    intro f hf hK
    exfalso
    have := totalFirstSize_bound hf
    omega
  | succ n ih =>
    intro f hf hK
    rcases hp : firstPass rules f with ⟨g, c⟩
    have hiter : firstIter rules (n + 1) f =
        if c then firstIter rules n g else g := by
      show (let p := firstPass rules f;
        if p.2 then firstIter rules n p.1 else p.1) = _
      rw [hp]
    have hfold : rules.foldl (fun p r => firstStep p.1 p.2 r) (f, false) =
        (g, c) := hp
    cases c with
    | false =>
      have hunch := @firstFold_unchanged rules f (by rw [hfold])
      have hgf : g = f := by
        have := hunch.1
        rw [hfold] at this
        exact this
      subst hgf
      rw [hiter]
      simp only [Bool.false_eq_true, if_false]
      exact hp
    | true =>
      rw [hiter]
      simp only [if_true]
      apply ih
      · have := firstFold_inv rules rules (fun r hr => hr) f false hf
        rw [hfold] at this
        exact this
      · have hstrict := firstFold_changed_strict rules rules
          (fun r hr => hr) f (by rw [hfold])
        rw [hfold] at hstrict
        simp only at hstrict
        omega

theorem firstIter_stable (rules : List LR1_Rule) :
    ∀ (fuel : Nat) (f : FirstMap) (extra : Nat), FirstInv rules f →
    (firstKeys rules).length * (firstCandidates rules).dedup.length + 1 ≤
      fuel + totalFirstSize rules f →
    firstIter rules (fuel + extra) f = firstIter rules fuel f := by
  intro fuel
  induction fuel with
  | zero =>
    intro f extra hf hK
    exfalso
    have := totalFirstSize_bound hf
    omega
  | succ n ih =>
    intro f extra hf hK
    rcases hp : firstPass rules f with ⟨g, c⟩
    have hfold : rules.foldl (fun p r => firstStep p.1 p.2 r) (f, false) =
        (g, c) := hp
    have h1 : firstIter rules (n + 1 + extra) f =
        if c then firstIter rules (n + extra) g else g := by
      have he : n + 1 + extra = (n + extra) + 1 := by omega
      rw [he]
      show (let p := firstPass rules f;
        if p.2 then firstIter rules (n + extra) p.1 else p.1) = _
      rw [hp]
    have h2 : firstIter rules (n + 1) f =
        if c then firstIter rules n g else g := by
      show (let p := firstPass rules f;
        if p.2 then firstIter rules n p.1 else p.1) = _
      rw [hp]
    cases c with
    | false =>
      rw [h1, h2]
      simp only [Bool.false_eq_true, if_false]
    | true =>
      rw [h1, h2]
      simp only [if_true]
      apply ih
      · have := firstFold_inv rules rules (fun r hr => hr) f false hf
        rw [hfold] at this
        exact this
      · have hstrict := firstFold_changed_strict rules rules
          (fun r hr => hr) f (by rw [hfold])
        rw [hfold] at hstrict
        simp only at hstrict
        omega

theorem firstIter_inv (rules : List LR1_Rule) :
    ∀ (fuel : Nat) (f : FirstMap), FirstInv rules f →
    FirstInv rules (firstIter rules fuel f) := by
  intro fuel
  induction fuel with
  | zero => intro f hf; exact hf
  | succ n ih =>
    intro f hf
    rcases hp : firstPass rules f with ⟨g, c⟩
    have h2 : firstIter rules (n + 1) f =
        if c then firstIter rules n g else g := by
      show (let p := firstPass rules f;
        if p.2 then firstIter rules n p.1 else p.1) = _
      rw [hp]
    have hg : FirstInv rules g := by
      have := firstFold_inv rules rules (fun r hr => hr) f false hf
      rw [show rules.foldl (fun p r => firstStep p.1 p.2 r) (f, false) =
        (g, c) from hp] at this
      exact this
    cases c with
    | false => rw [h2]; simpa using hg
    | true => rw [h2]; simpa using ih g hg

theorem firstInit_inv (rules : List LR1_Rule) : FirstInv rules firstInit := by
  intro k
  simp [firstInit]

theorem totalFirstSize_init (rules : List LR1_Rule) :
    totalFirstSize rules firstInit = 0 := by
  unfold totalFirstSize
  apply List.sum_eq_zero
  intro x hx
  rcases List.mem_map.mp hx with ⟨k, _, rfl⟩
  simp [firstInit]

theorem calcFirst_inv (rules : List LR1_Rule) :
    FirstInv rules (LR1.calcFirst rules) :=
  firstIter_inv rules (firstBound rules) firstInit (firstInit_inv rules)

theorem calcFirst_fix (rules : List LR1_Rule) :
    firstPass rules (LR1.calcFirst rules) = (LR1.calcFirst rules, false) := by
  unfold LR1.calcFirst
  apply firstIter_reaches_fix rules (firstBound rules) firstInit
    (firstInit_inv rules)
  have h0 := totalFirstSize_init rules
  unfold firstBound
  omega

/-- **C3.** FIRST soundness: after `calcFirst` returns, for every rule
`A → X β`, if the leftmost right-hand-side symbol `X` is a terminal then `X`
is an element of FIRST(A), and if `X` is a non-terminal then FIRST(X) is a
subset of FIRST(A).  (`definedNTs` is the grammar validity check performed by
`calcTable` before it invokes `calcFirst`.) -/
theorem claim_C3_first_sound (rules : List LR1_Rule) (hdef : definedNTs rules) :
    ∀ r ∈ rules, ∀ x rest, r.rhs = x :: rest →
      (x.type = LR1_RuleItemType.Terminal →
        x.value ∈ LR1.calcFirst rules r.lhs) ∧
      (x.type = LR1_RuleItemType.NonTerminal →
        ∀ y ∈ LR1.calcFirst rules x.value, y ∈ LR1.calcFirst rules r.lhs) := by
  intro r hr x rest hx
  have hfix : (rules.foldl (fun p r => firstStep p.1 p.2 r)
      (LR1.calcFirst rules, false)).2 = false := by
    rw [show rules.foldl (fun p r => firstStep p.1 p.2 r)
      (LR1.calcFirst rules, false) = firstPass rules (LR1.calcFirst rules)
      from rfl, calcFirst_fix]
  have hall := (firstFold_unchanged hfix).2 r hr
  obtain ⟨lhs, rhs, cb⟩ := r
  simp only at hx
  subst hx
  constructor
  · intro hT
    have hty : ¬(x.type = LR1_RuleItemType.NonTerminal) := by
      rw [hT]
      intro hcon
      exact absurd hcon (by intro hh; cases hh)
    simp only [firstStep, hty, if_false, Bool.false_or] at hall
    have hc : (LR1.calcFirst rules lhs).contains x.value = true := by
      cases hcc : (LR1.calcFirst rules lhs).contains x.value with
      | true => rfl
      | false => rw [hcc] at hall; simp at hall
    simpa using hc
  · intro hNT y hy
    simp only [firstStep, hNT, if_true, Bool.false_or] at hall
    have hle : (StrSet.union (LR1.calcFirst rules lhs)
        (LR1.calcFirst rules x.value)).length ≤
        (LR1.calcFirst rules lhs).length := by
      simpa using of_decide_eq_false hall
    exact StrSet.subset_of_union_length
      (Nat.le_antisymm hle (StrSet.length_le_union _ _)) y hy

/-- Witness for C3: in the grammar `s = t; t = "a";`, the terminal `":a"`
heads rule `t = "a"` and indeed lands in FIRST(t). -/
theorem claim_C3_first_sound_witness :
    (":a" : String) ∈ LR1.calcFirst Gfirst "t" := by
  have h := claim_C3_first_sound Gfirst (by unfold definedNTs; decide)
    ⟨"t", [⟨LR1_RuleItemType.Terminal, ":a"⟩], ""⟩ (by decide)
    ⟨LR1_RuleItemType.Terminal, ":a"⟩ [] rfl
  exact h.1 rfl

/-- **C9.** `calcFirst` terminates for every grammar (the fuelled iteration
is stable from `firstBound` on, because FIRST sets grow monotonically inside
the finite terminal alphabet), and at termination the FIRST map is a fixed
point: one further pass over all rules reports no change and alters no set. -/
theorem claim_C9_calcFirst_terminates (rules : List LR1_Rule)
    (hdef : definedNTs rules) :
    (∀ extra : Nat,
      firstIter rules (firstBound rules + extra) firstInit =
        LR1.calcFirst rules) ∧
    firstPass rules (LR1.calcFirst rules) = (LR1.calcFirst rules, false) := by
  refine ⟨?_, calcFirst_fix rules⟩
  intro extra
  unfold LR1.calcFirst
  apply firstIter_stable rules (firstBound rules) firstInit extra
    (firstInit_inv rules)
  have h0 := totalFirstSize_init rules
  unfold firstBound
  omega

/-- Witness for C9 at the grammar `s = t; t = "a";` with two passes of spare
fuel. -/
theorem claim_C9_calcFirst_terminates_witness :
    firstIter Gfirst (firstBound Gfirst + 2) firstInit =
      LR1.calcFirst Gfirst :=
  (claim_C9_calcFirst_terminates Gfirst (by unfold definedNTs; decide)).1 2

/-! ## `addItem`: merging behaviour and core uniqueness (claim C8) -/

theorem addItemAux_not_found {items : List LR1_StateItem} {n : LR1_StateItem}
    (h : ∀ i ∈ items, ¬(i.pos = n.pos ∧ i.ruleIdx = n.ruleIdx)) :
    addItemAux items n = (items, false) := by
  induction items with
  | nil => rfl
  | cons i rest ih =>
    have hi := h i (List.mem_cons_self i rest)
    simp only [addItemAux, if_neg hi]
    rw [ih (fun j hj => h j (List.mem_cons_of_mem i hj))]

theorem addItemAux_found {items : List LR1_StateItem} {n : LR1_StateItem}
    (hex : ∃ i ∈ items, i.pos = n.pos ∧ i.ruleIdx = n.ruleIdx) :
    ∃ l₁ m l₂, items = l₁ ++ m :: l₂ ∧
      (∀ i ∈ l₁, ¬(i.pos = n.pos ∧ i.ruleIdx = n.ruleIdx)) ∧
      (m.pos = n.pos ∧ m.ruleIdx = n.ruleIdx) ∧
      addItemAux items n = (l₁ ++
        { m with lookAheadSet := StrSet.union m.lookAheadSet n.lookAheadSet }
          :: l₂, true) := by
  induction items with
  | nil => simp at hex
  | cons i rest ih =>
    by_cases hi : i.pos = n.pos ∧ i.ruleIdx = n.ruleIdx
    · exact ⟨[], i, rest, by simp, by simp, hi,
        by simp [addItemAux, if_pos hi]⟩
    · have hex' : ∃ j ∈ rest, j.pos = n.pos ∧ j.ruleIdx = n.ruleIdx := by
        rcases hex with ⟨j, hj, hcore⟩
        rcases List.mem_cons.mp hj with rfl | hj'
        · exact absurd hcore hi
        · exact ⟨j, hj', hcore⟩
      obtain ⟨l₁, m, l₂, heq, hnone, hcore, haux⟩ := ih hex'
      refine ⟨i :: l₁, m, l₂, by simp [heq], ?_, hcore, ?_⟩
      · intro j hj
        rcases List.mem_cons.mp hj with rfl | hj'
        · exact hi
        · exact hnone j hj'
      · simp only [addItemAux, if_neg hi, haux]
        simp

/-- **C8.** Core-uniqueness of item sets: `addItem` preserves the invariant
that no two items of a state share a (rule, dot position) core; and when the
new item is core-equal to an existing one it merges the new lookahead set
into that item (the first core-equal one), returns `false`, and leaves the
number of items unchanged. -/
theorem claim_C8_addItem_merges (s : LR1_State) (n : LR1_StateItem) :
    (CoresNodup s.itemSet → CoresNodup (s.addItem n).1.itemSet) ∧
    ((∃ i ∈ s.itemSet, i.pos = n.pos ∧ i.ruleIdx = n.ruleIdx) →
      (s.addItem n).2 = false ∧
      (s.addItem n).1.itemSet.length = s.itemSet.length ∧
      ∃ l₁ m l₂, s.itemSet = l₁ ++ m :: l₂ ∧
        (∀ i ∈ l₁, ¬(i.pos = n.pos ∧ i.ruleIdx = n.ruleIdx)) ∧
        (m.pos = n.pos ∧ m.ruleIdx = n.ruleIdx) ∧
        (s.addItem n).1.itemSet = l₁ ++
          { m with lookAheadSet :=
            StrSet.union m.lookAheadSet n.lookAheadSet } :: l₂) := by
  constructor
  · intro hnd
    by_cases hex : ∃ i ∈ s.itemSet, i.pos = n.pos ∧ i.ruleIdx = n.ruleIdx
    · obtain ⟨l₁, m, l₂, heq, hnone, hcore, haux⟩ := addItemAux_found hex
      unfold LR1_State.addItem
      rw [haux]
      simp only [if_true]
      show CoresNodup (l₁ ++ _ :: l₂)
      have hc : cores (l₁ ++
          { m with lookAheadSet :=
            StrSet.union m.lookAheadSet n.lookAheadSet } :: l₂) =
          cores (l₁ ++ m :: l₂) := by
        simp [cores]
      unfold CoresNodup
      rw [hc, ← heq]
      exact hnd
    · have hnone : ∀ i ∈ s.itemSet,
          ¬(i.pos = n.pos ∧ i.ruleIdx = n.ruleIdx) := by
        intro i hi hcore
        exact hex ⟨i, hi, hcore⟩
      have haux := addItemAux_not_found hnone
      unfold LR1_State.addItem
      rw [haux]
      simp only [Bool.false_eq_true, if_false]
      show CoresNodup (s.itemSet ++ [n])
      unfold CoresNodup cores at hnd ⊢
      rw [List.map_append]
      rw [List.nodup_append]
      refine ⟨hnd, by simp, ?_⟩
      intro p hp hq
      simp only [List.map_cons, List.map_nil, List.mem_singleton] at hq
      subst hq
      rcases List.mem_map.mp hp with ⟨i, hi, hip⟩
      have h1 : i.ruleIdx = n.ruleIdx := congrArg Prod.fst hip
      have h2 : i.pos = n.pos := congrArg Prod.snd hip
      exact hnone i hi ⟨h2, h1⟩
  · intro hex
    obtain ⟨l₁, m, l₂, heq, hnone, hcore, haux⟩ := addItemAux_found hex
    unfold LR1_State.addItem
    rw [haux]
    simp only [if_true]
    refine ⟨by trivial, ?_, ⟨l₁, m, l₂, heq, hnone, hcore, by trivial⟩⟩
    rw [heq]
    simp

/-- Witness for C8: adding `[t = . ":a", {":a"}]` to a state already holding
the core-equal item `[t = . ":a", {"END"}]` keeps one item and returns
`false`. -/
theorem claim_C8_addItem_merges_witness :
    ((LR1_State.mk [⟨0, ["END"], 0⟩]).addItem ⟨0, [":a"], 0⟩).2 = false ∧
    ((LR1_State.mk [⟨0, ["END"], 0⟩]).addItem
      ⟨0, [":a"], 0⟩).1.itemSet.length = 1 := by
  have h := (claim_C8_addItem_merges (LR1_State.mk [⟨0, ["END"], 0⟩])
    ⟨0, [":a"], 0⟩).2 (by decide)
  exact ⟨h.1, h.2.1.trans rfl⟩

/-! ## `calcItemSet` never hits the seed `process.exit` branch (claim C10) -/

theorem mem_cores_iff {items : List LR1_StateItem} {r p : Nat} :
    (r, p) ∈ cores items ↔ ∃ i ∈ items, i.ruleIdx = r ∧ i.pos = p := by
  unfold cores
  rw [List.mem_map]
  constructor
  · rintro ⟨i, hi, heq⟩
    exact ⟨i, hi, congrArg Prod.fst heq, congrArg Prod.snd heq⟩
  · rintro ⟨i, hi, h1, h2⟩
    exact ⟨i, hi, by rw [h1, h2]⟩

theorem addItem_append_of_not_mem {s : LR1_State} {n : LR1_StateItem}
    (h : (n.ruleIdx, n.pos) ∉ cores s.itemSet) :
    s.addItem n = (⟨s.itemSet ++ [n]⟩, true) := by
  have hnone : ∀ i ∈ s.itemSet, ¬(i.pos = n.pos ∧ i.ruleIdx = n.ruleIdx) := by
    intro i hi hcon
    exact h (mem_cores_iff.mpr ⟨i, hi, hcon.2, hcon.1⟩)
  unfold LR1_State.addItem
  rw [addItemAux_not_found hnone]
  simp

theorem addItem_coresNodup {s : LR1_State} {n : LR1_StateItem}
    (h : CoresNodup s.itemSet) : CoresNodup ((s.addItem n).1).itemSet := by
  by_cases hex : ∃ i ∈ s.itemSet, i.pos = n.pos ∧ i.ruleIdx = n.ruleIdx
  · obtain ⟨l₁, m, l₂, heq, hnone, hcore, haux⟩ := addItemAux_found hex
    unfold LR1_State.addItem
    rw [haux]
    simp only [if_true]
    show CoresNodup (l₁ ++ _ :: l₂)
    have hc : cores (l₁ ++
        { m with lookAheadSet :=
          StrSet.union m.lookAheadSet n.lookAheadSet } :: l₂) =
        cores (l₁ ++ m :: l₂) := by
      simp [cores]
    unfold CoresNodup
    rw [hc, ← heq]
    exact h
  · have hmem : (n.ruleIdx, n.pos) ∉ cores s.itemSet := by
      intro hc
      obtain ⟨i, hi, h1, h2⟩ := mem_cores_iff.mp hc
      exact hex ⟨i, hi, h2, h1⟩
    rw [addItem_append_of_not_mem hmem]
    show CoresNodup (s.itemSet ++ [n])
    unfold CoresNodup cores at h ⊢
    rw [List.map_append, List.nodup_append]
    refine ⟨h, by simp, ?_⟩
    intro p hp hq
    simp only [List.map_cons, List.map_nil, List.mem_singleton] at hq
    subst hq
    exact hmem hp

theorem foldl_addItem_coresNodup (newItems : List LR1_StateItem) :
    ∀ acc, CoresNodup acc →
    CoresNodup (newItems.foldl
      (fun acc it => ((LR1_State.mk acc).addItem it).1.itemSet) acc) := by
  induction newItems with
  | nil => intro acc h; exact h
  | cons it rest ih =>
    intro acc h
    exact ih _ (@addItem_coresNodup ⟨acc⟩ it h)

theorem closurePass_coresNodup {rules : List LR1_Rule} {first : FirstMap}
    {items : List LR1_StateItem} (h : CoresNodup items) :
    CoresNodup (closurePass rules first items) :=
  foldl_addItem_coresNodup _ items h

theorem closureIter_coresNodup (rules : List LR1_Rule) (first : FirstMap) :
    ∀ (fuel : Nat) (items closed : List LR1_StateItem), CoresNodup items →
    closureIter rules first fuel items = some closed → CoresNodup closed := by
  intro fuel
  induction fuel with
  | zero =>
    intro items closed h hcl
    exact absurd hcl (by simp [closureIter])
  | succ n ih =>
    intro items closed h hcl
    simp only [closureIter] at hcl
    by_cases hlen : items.length < (closurePass rules first items).length
    · rw [if_pos hlen] at hcl
      exact ih _ _ (closurePass_coresNodup h) hcl
    · rw [if_neg hlen] at hcl
      cases hcl
      exact closurePass_coresNodup h

theorem seedFold_ok (rules : List LR1_Rule) (ty : LR1_RuleItemType)
    (v : String) :
    ∀ (items : List LR1_StateItem) (si : LR1_State),
    CoresNodup si.itemSet →
    (((cores items).filter (seedMatches rules ty v)).map
      (fun c => (c.1, c.2 + 1))).Nodup →
    (∀ c ∈ ((cores items).filter (seedMatches rules ty v)).map
      (fun c => (c.1, c.2 + 1)), c ∉ cores si.itemSet) →
    ∃ s', List.foldlM (seedStep rules ty v) si items = Except.ok s' := by
  intro items
  induction items with
  | nil =>
    intro si h1 _ _
    exact ⟨si, rfl⟩
  | cons it rest ih =>
    intro si h1 h2 h3
    have hcons : (cores (it :: rest)).filter (seedMatches rules ty v) =
        if seedMatches rules ty v (it.ruleIdx, it.pos) then
          (it.ruleIdx, it.pos) :: (cores rest).filter (seedMatches rules ty v)
        else (cores rest).filter (seedMatches rules ty v) := by
      simp only [cores, List.map_cons, List.filter_cons]
    cases hm : seedMatches rules ty v (it.ruleIdx, it.pos) with
    | false =>
      have hstep : seedStep rules ty v si it = Except.ok si := by
        unfold seedStep
        unfold seedMatches at hm
        cases hget : (getRule rules it.ruleIdx).rhs.get? it.pos with
        | none => rfl
        | some x =>
          rw [hget] at hm
          have hxc : ¬(x.type = ty ∧ x.value = v) := by simpa using hm
          simp [hxc]
      have hrw : List.foldlM (seedStep rules ty v) si (it :: rest) =
          List.foldlM (seedStep rules ty v) si rest := by
        show (seedStep rules ty v si it >>= fun x =>
          List.foldlM (seedStep rules ty v) x rest) = _
        rw [hstep]
        rfl
      rw [hrw]
      rw [hcons, if_neg (by rw [hm]; exact Bool.false_ne_true)] at h2 h3
      exact ih si h1 h2 h3
    | true =>
      have hget : ∃ x, (getRule rules it.ruleIdx).rhs.get? it.pos = some x ∧
          x.type = ty ∧ x.value = v := by
        unfold seedMatches at hm
        cases hg : (getRule rules it.ruleIdx).rhs.get? it.pos with
        | none => rw [hg] at hm; cases hm
        | some x =>
          rw [hg] at hm
          exact ⟨x, rfl, by simpa using hm⟩
      obtain ⟨x, hg, hxc⟩ := hget
      rw [hcons, if_pos (by rw [hm])] at h2 h3
      simp only [List.map_cons] at h2 h3
      obtain ⟨hhd, htl⟩ := List.nodup_cons.mp h2
      have hnotin : (it.ruleIdx, it.pos + 1) ∉ cores si.itemSet :=
        h3 _ (List.mem_cons_self _ _)
      have hadd := @addItem_append_of_not_mem si
        { it with pos := it.pos + 1 } hnotin
      have hstep : seedStep rules ty v si it =
          Except.ok ⟨si.itemSet ++ [{ it with pos := it.pos + 1 }]⟩ := by
        unfold seedStep
        rw [hg]
        simp [hxc.1, hxc.2, hadd]
      have hrw : List.foldlM (seedStep rules ty v) si (it :: rest) =
          List.foldlM (seedStep rules ty v)
            ⟨si.itemSet ++ [{ it with pos := it.pos + 1 }]⟩ rest := by
        show (seedStep rules ty v si it >>= fun x =>
          List.foldlM (seedStep rules ty v) x rest) = _
        rw [hstep]
        rfl
      rw [hrw]
      apply ih
      · show CoresNodup (si.itemSet ++ [{ it with pos := it.pos + 1 }])
        unfold CoresNodup cores at h1 ⊢
        rw [List.map_append, List.nodup_append]
        refine ⟨h1, by simp, ?_⟩
        intro p hp hq
        simp only [List.map_cons, List.map_nil, List.mem_singleton] at hq
        subst hq
        exact hnotin hp
      · exact htl
      · intro c hc
        have hc_full : c ∈ (it.ruleIdx, it.pos + 1) ::
            ((cores rest).filter (seedMatches rules ty v)).map
            (fun c => (c.1, c.2 + 1)) :=
          List.mem_cons_of_mem _ hc
        have hne : c ≠ (it.ruleIdx, it.pos + 1) := by
          intro hceq
          subst hceq
          exact hhd hc
        intro hmem
        simp only [cores, List.map_append] at hmem
        rcases List.mem_append.mp hmem with hmem1 | hmem2
        · exact h3 c hc_full hmem1
        · simp only [List.map_cons, List.map_nil, List.mem_singleton] at hmem2
          exact hne hmem2

theorem seedSuccessor_ok (rules : List LR1_Rule) (ty : LR1_RuleItemType)
    (v : String) {items : List LR1_StateItem} (h : CoresNodup items) :
    ∃ s', seedSuccessor rules ty v items = Except.ok s' := by
  apply seedFold_ok
  · show CoresNodup []
    simp [CoresNodup, cores]
  · apply List.Nodup.map
    · intro a b hab
      obtain ⟨a1, a2⟩ := a
      obtain ⟨b1, b2⟩ := b
      simp only [Prod.mk.injEq] at hab
      have h2 : a2 = b2 := by omega
      rw [hab.1, h2]
    · exact h.filter _
  · intro c _
    simp [cores]

theorem buildSuccessors_ok (rules : List LR1_Rule) (ty : LR1_RuleItemType)
    {closed : List LR1_StateItem} (h : CoresNodup closed) :
    ∀ vs : StrSet, ∃ out, buildSuccessors rules ty closed vs =
      Except.ok out := by
  intro vs
  induction vs with
  | nil => exact ⟨[], rfl⟩
  | cons v vs ih =>
    obtain ⟨si, hsi⟩ := seedSuccessor_ok rules ty v h
    obtain ⟨rest, hrest⟩ := ih
    refine ⟨(⟨ty, v⟩, si) :: rest, ?_⟩
    unfold buildSuccessors
    rw [hsi, hrest]

/-- **C10.** During successor construction in `calcItemSet`, every seed item
produced by advancing the dot past the transition symbol has a core distinct
from all seeds already added to the same tentative successor, so `addItem`
returns `true` there and the process-terminating branch guarded by `addItem`
returning `false` is unreachable for every state whose item set is
core-unique. -/
theorem claim_C10_no_seed_exit (rules : List LR1_Rule) (first : FirstMap)
    (fuel : Nat) (s : LR1_State) (h : CoresNodup s.itemSet) :
    LR1_State.calcItemSet rules first fuel s ≠
      Except.error GenError.fatalExit := by
  cases hcl : closureIter rules first fuel s.itemSet with
  | none =>
    unfold LR1_State.calcItemSet
    simp only [hcl]
    simp
  | some closed =>
    have hnd := closureIter_coresNodup rules first fuel s.itemSet closed h hcl
    obtain ⟨ts, hts⟩ := buildSuccessors_ok rules LR1_RuleItemType.Terminal hnd
      (successorSymbols rules closed LR1_RuleItemType.Terminal)
    obtain ⟨nts, hnts⟩ := buildSuccessors_ok rules
      LR1_RuleItemType.NonTerminal hnd
      (successorSymbols rules closed LR1_RuleItemType.NonTerminal)
    unfold LR1_State.calcItemSet
    simp only [hcl, hts, hnts]
    simp

/-- Witness for C10: the initial state of the grammar `s = t; t = "a";`
closes and seeds successors without reaching the exit branch. -/
theorem claim_C10_no_seed_exit_witness :
    LR1_State.calcItemSet Gfirst (LR1.calcFirst Gfirst) 5
      (LR1_State.mk [⟨0, ["END"], 0⟩]) ≠
      Except.error GenError.fatalExit :=
  claim_C10_no_seed_exit Gfirst (LR1.calcFirst Gfirst) 5
    (LR1_State.mk [⟨0, ["END"], 0⟩])
    (by unfold CoresNodup cores; decide)

/-! ## Error kinds of the construction phases (claims C1 and C2) -/

theorem foldlM_except_err {α β γ : Type} (f : β → α → Except γ β)
    (P : γ → Prop) (hf : ∀ b a e, f b a = Except.error e → P e) :
    ∀ (l : List α) (b : β) (e : γ),
    List.foldlM f b l = Except.error e → P e := by
  intro l
  induction l with
  | nil =>
    intro b e h
    cases h
  | cons a rest ih =>
    intro b e h
    cases hstep : f b a with
    | error g =>
      have hrw : List.foldlM f b (a :: rest) = Except.error g := by
        show (f b a >>= fun x => List.foldlM f x rest) = _
        rw [hstep]
        rfl
      rw [hrw] at h
      injection h with h2
      subst h2
      exact hf b a _ hstep
    | ok b' =>
      have hrw : List.foldlM f b (a :: rest) = List.foldlM f b' rest := by
        show (f b a >>= fun x => List.foldlM f x rest) = _
        rw [hstep]
        rfl
      rw [hrw] at h
      exact ih b' e h

theorem seedStep_err (rules : List LR1_Rule) (ty : LR1_RuleItemType)
    (v : String) :
    ∀ (si : LR1_State) (it : LR1_StateItem) (e : GenError),
    seedStep rules ty v si it = Except.error e →
    e = GenError.fatalExit := by
  intro si it e h
  unfold seedStep at h
  cases hget : (getRule rules it.ruleIdx).rhs.get? it.pos with
  | none =>
    rw [hget] at h
    cases h
  | some x =>
    rw [hget] at h
    simp only at h
    by_cases hc : x.type = ty ∧ x.value = v
    · rw [if_pos hc] at h
      by_cases hp : (si.addItem { it with pos := it.pos + 1 }).2 = true
      · rw [if_pos hp] at h
        cases h
      · rw [if_neg hp] at h
        injection h with h2
        subst h2
        rfl
    · rw [if_neg hc] at h
      cases h

theorem seedSuccessor_err (rules : List LR1_Rule) (ty : LR1_RuleItemType)
    (v : String) (items : List LR1_StateItem) (e : GenError)
    (h : seedSuccessor rules ty v items = Except.error e) :
    e = GenError.fatalExit :=
  foldlM_except_err (seedStep rules ty v) (fun g => g = GenError.fatalExit)
    (seedStep_err rules ty v) items (LR1_State.mk []) e h

theorem buildSuccessors_err (rules : List LR1_Rule) (ty : LR1_RuleItemType)
    (closed : List LR1_StateItem) :
    ∀ (vs : StrSet) (e : GenError),
    buildSuccessors rules ty closed vs = Except.error e →
    e = GenError.fatalExit := by
  intro vs
  induction vs with
  | nil =>
    intro e h
    cases h
  | cons v rest ih =>
    intro e h
    unfold buildSuccessors at h
    cases hs : seedSuccessor rules ty v closed with
    | error g =>
      rw [hs] at h
      cases h
      exact seedSuccessor_err rules ty v closed _ hs
    | ok si =>
      rw [hs] at h
      cases hr : buildSuccessors rules ty closed rest with
      | error g =>
        rw [hr] at h
        cases h
        exact ih _ hr
      | ok out =>
        rw [hr] at h
        cases h

theorem calcItemSet_err (rules : List LR1_Rule) (first : FirstMap)
    (cfuel : Nat) (s : LR1_State) (e : GenError)
    (h : LR1_State.calcItemSet rules first cfuel s = Except.error e) :
    e = GenError.fatalExit ∨ e = GenError.noFuel := by
  unfold LR1_State.calcItemSet at h
  cases hcl : closureIter rules first cfuel s.itemSet with
  | none =>
    rw [hcl] at h
    cases h
    exact Or.inr rfl
  | some closed =>
    rw [hcl] at h
    simp only at h
    cases hts : buildSuccessors rules LR1_RuleItemType.Terminal closed
        (successorSymbols rules closed LR1_RuleItemType.Terminal) with
    | error g =>
      rw [hts] at h
      cases h
      exact Or.inl (buildSuccessors_err _ _ _ _ _ hts)
    | ok ts =>
      rw [hts] at h
      cases hnts : buildSuccessors rules LR1_RuleItemType.NonTerminal closed
          (successorSymbols rules closed LR1_RuleItemType.NonTerminal) with
      | error g =>
        rw [hnts] at h
        cases h
        exact Or.inl (buildSuccessors_err _ _ _ _ _ hnts)
      | ok nts =>
        rw [hnts] at h
        cases h

theorem buildStates_succ (rules : List LR1_Rule) (first : FirstMap)
    (cfuel n : Nat) (states : List StateRec) (a : Pending)
    (as : List Pending) :
    buildStates rules first cfuel (n + 1) states (a :: as) =
      match (a :: as).getLast? with
      | none => (states, none)
      | some q =>
        match LR1_State.calcItemSet rules first cfuel q.state with
        | Except.error e => (states, some e)
        | Except.ok (closed, succs) =>
          match findEqualIdx states closed with
          | some j =>
            buildStates rules first cfuel n (resolveEdge states q.inEdge j)
              ((a :: as).dropLast)
          | none =>
            buildStates rules first cfuel n
              (resolveEdge states q.inEdge states.length ++
                [⟨closed, succs.map (fun ls => (ls.1, none))⟩])
              ((a :: as).dropLast ++ (succs.enum.map
                (fun p => (⟨p.2.2, some (states.length, p.1)⟩ : Pending)))) :=
  rfl

theorem buildStates_err (rules : List LR1_Rule) (first : FirstMap)
    (cfuel : Nat) :
    ∀ (fuel : Nat) (states : List StateRec) (Q : List Pending)
      (e : GenError),
    (buildStates rules first cfuel fuel states Q).2 = some e →
    e = GenError.fatalExit ∨ e = GenError.noFuel := by
  intro fuel
  induction fuel with
  | zero =>
    intro states Q e h
    cases Q with
    | nil => cases h
    | cons a as =>
      cases h
      exact Or.inr rfl
  | succ n ih =>
    intro states Q e h
    cases Q with
    | nil => cases h
    | cons a as =>
      rw [buildStates_succ] at h
      cases hq : (a :: as).getLast? with
      | none => simp at hq
      | some q =>
        rw [hq] at h
        simp only at h
        cases hci : LR1_State.calcItemSet rules first cfuel q.state with
        | error g =>
          rw [hci] at h
          cases h
          exact calcItemSet_err rules first cfuel q.state _ hci
        | ok pr =>
          obtain ⟨closed, succs⟩ := pr
          rw [hci] at h
          simp only at h
          cases hfe : findEqualIdx states closed with
          | some j =>
            rw [hfe] at h
            exact ih _ _ _ h
          | none =>
            rw [hfe] at h
            exact ih _ _ _ h

theorem tryInsertEntry_err {m : List (String × LR1_TableEntry)} {k : String}
    {v : LR1_TableEntry} {e : GenError}
    (h : tryInsertEntry m k v = Except.error e) : e = GenError.fatalExit := by
  unfold tryInsertEntry at h
  split at h
  · injection h with h2
    exact h2.symm
  · cases h

theorem addReduceEntry_err {entries : List (String × LR1_TableEntry)}
    {t : String} {r : Nat} {e : GenError}
    (h : addReduceEntry entries t r = Except.error e) :
    ∃ a b, e = GenError.reduceReduce a b := by
  unfold addReduceEntry at h
  split at h
  · injection h with h2
    exact ⟨_, _, h2.symm⟩
  · cases h

theorem calcReduceEntries_err {rules : List LR1_Rule} {s : LR1_State}
    {e : GenError}
    (h : s.calcReduceEntries rules = Except.error e) :
    ∃ a b, e = GenError.reduceReduce a b := by
  unfold LR1_State.calcReduceEntries at h
  refine foldlM_except_err _ (fun g => ∃ a b, g = GenError.reduceReduce a b)
    ?_ s.itemSet [] e h
  intro entries item g hg
  split at hg
  · exact foldlM_except_err _ (fun g => ∃ a b, g = GenError.reduceReduce a b)
      (fun es t gg hgg => addReduceEntry_err hgg) item.lookAheadSet entries
      g hg
  · cases hg

theorem buildRow_err {rules : List LR1_Rule} {st : StateRec}
    {g : GenError} {row : LR1_TableRow}
    (h : buildRow rules st = Except.error (g, row)) :
    g = GenError.fatalExit ∨ ∃ a b, g = GenError.reduceReduce a b := by
  unfold buildRow at h
  cases h1 : st.outEdges.foldlM (fun (row : LR1_TableRow) e =>
      let entry : LR1_TableEntry := ⟨true, e.2.getD 0⟩
      if e.1.type = LR1_RuleItemType.Terminal then
        match tryInsertEntry row.actionEntries e.1.value entry with
        | Except.error g => Except.error (g, row)
        | Except.ok m => Except.ok { row with actionEntries := m }
      else
        match tryInsertEntry row.gotoEntries e.1.value entry with
        | Except.error g => Except.error (g, row)
        | Except.ok m => Except.ok { row with gotoEntries := m })
      (⟨[], []⟩ : LR1_TableRow) with
  | error p =>
    rw [h1] at h
    injection h with h2
    have hp : p.1 = GenError.fatalExit := by
      refine foldlM_except_err _ (fun q => q.1 = GenError.fatalExit)
        ?_ st.outEdges (⟨[], []⟩ : LR1_TableRow) p h1
      intro b a q hq
      simp only at hq
      split at hq
      · split at hq
        · next heq =>
          injection hq with hq2
          subst hq2
          simpa using tryInsertEntry_err heq
        · cases hq
      · split at hq
        · next heq =>
          injection hq with hq2
          subst hq2
          simpa using tryInsertEntry_err heq
        · cases hq
    rw [h2] at hp
    exact Or.inl hp
  | ok row1 =>
    rw [h1] at h
    simp only at h
    cases h2 : st.state.calcReduceEntries rules with
    | error gg =>
      rw [h2] at h
      injection h with h3
      have hkinds := calcReduceEntries_err h2
      rw [show gg = g from congrArg Prod.fst h3] at hkinds
      exact Or.inr hkinds
    | ok reduceEntries =>
      rw [h2] at h
      simp only at h
      have hp : (g, row).1 = GenError.fatalExit := by
        refine foldlM_except_err _ (fun q => q.1 = GenError.fatalExit)
          ?_ reduceEntries row1 (g, row) h
        intro b a q hq
        split at hq
        · next heq =>
          injection hq with hq2
          subst hq2
          simpa using tryInsertEntry_err heq
        · cases hq
      exact Or.inl hp

theorem buildRows_err (rules : List LR1_Rule) :
    ∀ (states : List StateRec) (e : GenError),
    (buildRows rules states).2 = some e →
    e = GenError.fatalExit ∨ ∃ a b, e = GenError.reduceReduce a b := by
  intro states
  induction states with
  | nil =>
    intro e h
    cases h
  | cons st rest ih =>
    intro e h
    unfold buildRows at h
    cases h1 : buildRow rules st with
    | error p =>
      obtain ⟨gg, row⟩ := p
      rw [h1] at h
      injection h with h2
      subst h2
      exact buildRow_err h1
    | ok row =>
      rw [h1] at h
      simp only at h
      exact ih e h

/-- **C1 (amended).** The generator-time errors raised before the table
object is allocated — empty grammar and undefined non-terminal — abort table
construction with the `table` field unchanged (so still `null` on a fresh
object).  The reduce/reduce conflict of the original claim does not belong
in this list: it is raised during row construction, after `this.table` has
been assigned (see the counterexample). -/
theorem claim_C1_table_unset (fuel : Nat) (lr : LR1Rec) (e : GenError)
    (he : (LR1.calcTable fuel lr).2 = some e)
    (hk : e = GenError.emptyGrammar ∨ ∃ v, e = GenError.undefinedNT v) :
    ((LR1.calcTable fuel lr).1).table = lr.table := by
  unfold LR1.calcTable at he ⊢
  by_cases hq : lr.rules.isEmpty
  · simp [hq]
  · simp only [hq, Bool.false_eq_true, if_false] at he ⊢
    cases hnt : findUndefinedNT lr.rules with
    | some v =>
      simp only [hnt]
    | none =>
      simp only [hnt] at he ⊢
      cases hbs : (buildStates lr.rules (LR1.calcFirst lr.rules)
          (closureFuelBound lr.rules) fuel []
          [⟨((LR1_State.mk []).addItem ⟨0, ["END"], 0⟩).1, none⟩]).2 with
      | some e2 =>
        simp only [hbs]
      | none =>
        simp only [hbs] at he ⊢
        have hkinds := buildRows_err lr.rules _ e he
        exfalso
        rcases hkinds with hf | ⟨a, b, hrr⟩
        · rcases hk with h1 | ⟨v, h2⟩
          · rw [hf] at h1
            cases h1
          · rw [hf] at h2
            cases h2
        · rcases hk with h1 | ⟨v, h2⟩
          · rw [hrr] at h1
            cases h1
          · rw [hrr] at h2
            cases h2

/-- Witness for C1 (amended): the empty grammar aborts with the table still
`null`. -/
theorem claim_C1_table_unset_witness :
    ((LR1.calcTable 5 (lrFresh [])).1).table = none :=
  claim_C1_table_unset 5 (lrFresh []) GenError.emptyGrammar (by decide)
    (Or.inl rfl)

/-- Counterexample to C1 as stated: on the grammar
`z = s; s = "a"; s = b; b = "a";` `calcTable` throws the reduce/reduce
conflict (between rules 1 and 3), yet `getTable()` no longer returns `null`:
the table field was assigned before row construction and holds a partially
built table. -/
theorem claim_C1_counterexample :
    (LR1.calcTable 20 (lrFresh Grr)).2 =
      some (GenError.reduceReduce 1 3) ∧
    ((LR1.calcTable 20 (lrFresh Grr)).1).table.isSome = true := by
  constructor
  · decide
  · decide

/-! ## No entry is ever overwritten (claim C2) -/

theorem lookupEntry_append (m tail : List (String × LR1_TableEntry))
    (k : String) :
    lookupEntry (m ++ tail) k =
      match lookupEntry m k with
      | some e => some e
      | none => lookupEntry tail k := by
  induction m with
  | nil => simp [lookupEntry]
  | cons p rest ih =>
    by_cases hk : p.1 = k
    · simp [lookupEntry, List.find?_cons, hk]
    · simp only [List.cons_append]
      simp [lookupEntry, List.find?_cons, hk] at ih ⊢
      exact ih

theorem lookupEntry_singleton_self (k : String) (v : LR1_TableEntry) :
    lookupEntry [(k, v)] k = some v := by
  simp [lookupEntry]

theorem lookupEntry_singleton_ne {k k' : String} (h : k' ≠ k)
    (v : LR1_TableEntry) : lookupEntry [(k, v)] k' = none := by
  have h2 : ¬(k = k') := fun hc => h hc.symm
  simp [lookupEntry, h2]

/-- **C2 (amended).** Table construction never overwrites an action- or
goto-map entry: every insertion is guarded by a key-presence check
(`tryInsertEntry` for the shift, goto and reduce-merge assignments of
`calcTable`, `addReduceEntry` inside `calcReduceEntries`), and a present
key makes the builder fail.  A reduce/reduce collision raises the conflict
error naming both rule indices; shift/shift, goto/goto and shift/reduce
collisions abort via `process.exit(-1)` (`fatalExit`) without raising a
conflict error. -/
theorem claim_C2_no_overwrite :
    (∀ (m : List (String × LR1_TableEntry)) (k : String)
      (v : LR1_TableEntry) m',
      tryInsertEntry m k v = Except.ok m' →
        lookupEntry m k = none ∧ lookupEntry m' k = some v ∧
        ∀ k' : String, k' ≠ k → lookupEntry m' k' = lookupEntry m k') ∧
    (∀ (m : List (String × LR1_TableEntry)) (k : String)
      (v : LR1_TableEntry), (lookupEntry m k).isSome →
      tryInsertEntry m k v = Except.error GenError.fatalExit) ∧
    (∀ (entries : List (String × LR1_TableEntry)) (t : String) (r : Nat)
      (ex : LR1_TableEntry), lookupEntry entries t = some ex →
      addReduceEntry entries t r =
        Except.error (GenError.reduceReduce ex.value r)) := by
  refine ⟨?_, ?_, ?_⟩
  · intro m k v m' h
    unfold tryInsertEntry at h
    split at h
    · cases h
    · next hnone =>
      have hnk : lookupEntry m k = none := by
        cases hcc : lookupEntry m k with
        | none => rfl
        | some x =>
          rw [hcc] at hnone
          simp at hnone
      injection h with h2
      subst h2
      refine ⟨hnk, ?_, ?_⟩
      · rw [lookupEntry_append, hnk]
        exact lookupEntry_singleton_self k v
      · intro k' hk'
        rw [lookupEntry_append]
        cases hcc : lookupEntry m k' with
        | none => exact lookupEntry_singleton_ne hk' v
        | some x => rfl
  · intro m k v h
    unfold tryInsertEntry
    rw [if_pos h]
  · intro entries t r ex h
    unfold addReduceEntry
    rw [h]

/-- Witness for C2 (amended): a fresh key inserts; the same key again hits
the fatal-exit guard; a reduce entry on an occupied key raises the
reduce/reduce conflict with both rule indices. -/
theorem claim_C2_no_overwrite_witness :
    lookupEntry [("END", (⟨true, 1⟩ : LR1_TableEntry))] "END" =
      some ⟨true, 1⟩ ∧
    tryInsertEntry [("END", (⟨true, 1⟩ : LR1_TableEntry))] "END" ⟨false, 0⟩ =
      Except.error GenError.fatalExit ∧
    addReduceEntry [("END", (⟨true, 1⟩ : LR1_TableEntry))] "END" 3 =
      Except.error (GenError.reduceReduce 1 3) :=
  ⟨by decide,
   claim_C2_no_overwrite.2.1 [("END", ⟨true, 1⟩)] "END" ⟨false, 0⟩
     (by decide),
   claim_C2_no_overwrite.2.2 [("END", ⟨true, 1⟩)] "END" 3 ⟨true, 1⟩
     (by decide)⟩

/-- Counterexample to C2 as stated: on the grammar
`z = s s; s = "a"; s = "a" "a";` a shift/reduce collision is an attempted
overwrite of the action entry for `":a"`, and the builder fails via
`process.exit(-1)` (`fatalExit`) — not by raising a conflict error. -/
theorem claim_C2_counterexample :
    (LR1.calcTable 20 (lrFresh Gsr)).2 = some GenError.fatalExit := by
  decide

/-! ## State equality, symmetry, and `addState` (claim C4) -/

theorem itemEqual_iff {a b : LR1_StateItem} :
    a.equal b = true ↔
      a.pos = b.pos ∧ a.ruleIdx = b.ruleIdx ∧
      a.lookAheadSet.length = b.lookAheadSet.length ∧
      ∀ x ∈ b.lookAheadSet, x ∈ a.lookAheadSet := by
  unfold LR1_StateItem.equal LR1_StateItem.compareLookAhead
  by_cases h1 : a.pos = b.pos
  · by_cases h2 : a.ruleIdx = b.ruleIdx
    · by_cases h3 : a.lookAheadSet.length = b.lookAheadSet.length
      · simp [h1, h2, h3, List.all_eq_true]
      · simp [h1, h2, h3]
    · simp [h1, h2]
  · simp [h1]

theorem itemEqual_symm {a b : LR1_StateItem} (ha : a.lookAheadSet.Nodup)
    (hb : b.lookAheadSet.Nodup) (h : a.equal b = true) :
    b.equal a = true := by
  rw [itemEqual_iff] at h ⊢
  obtain ⟨hp, hr, hlen, hsub⟩ := h
  refine ⟨hp.symm, hr.symm, hlen.symm, ?_⟩
  have hfin : b.lookAheadSet.toFinset = a.lookAheadSet.toFinset := by
    apply Finset.eq_of_subset_of_card_le
    · intro x hx
      rw [List.mem_toFinset] at hx ⊢
      exact hsub x hx
    · rw [List.toFinset_card_of_nodup ha, List.toFinset_card_of_nodup hb,
        hlen]
  intro x hx
  have : x ∈ a.lookAheadSet.toFinset := List.mem_toFinset.mpr hx
  rw [← hfin] at this
  exact List.mem_toFinset.mp this

theorem coresNodup_inj {items : List LR1_StateItem} (h : CoresNodup items)
    {x1 x2 : LR1_StateItem} (h1 : x1 ∈ items) (h2 : x2 ∈ items)
    (hr : x1.ruleIdx = x2.ruleIdx) (hp : x1.pos = x2.pos) : x1 = x2 :=
  List.inj_on_of_nodup_map h h1 h2 (by rw [Prod.mk.injEq]; exact ⟨hr, hp⟩)

theorem stateEqual_iff {a b : LR1_State} :
    a.equal b = true ↔
      a.itemSet.length = b.itemSet.length ∧
      ∀ x ∈ a.itemSet, ∃ y ∈ b.itemSet, x.equal y = true := by
  unfold LR1_State.equal
  rw [Bool.and_eq_true, List.all_eq_true]
  simp [List.any_eq_true]

theorem stateEqual_symm_true {a b : LR1_State} (ha : WfState a)
    (hb : LooksNodup b.itemSet) (h : a.equal b = true) :
    b.equal a = true := by
  classical
  obtain ⟨hac, hal⟩ := ha
  rw [stateEqual_iff] at h ⊢
  obtain ⟨hlen, hmatch⟩ := h
  refine ⟨hlen.symm, ?_⟩
  have hpick : ∀ x ∈ a.itemSet, ∃ y, y ∈ b.itemSet ∧ x.equal y = true := by
    intro x hx
    obtain ⟨y, hy1, hy2⟩ := hmatch x hx
    exact ⟨y, hy1, hy2⟩
  let f : LR1_StateItem → LR1_StateItem := fun x =>
    if hx : ∃ y, y ∈ b.itemSet ∧ x.equal y = true then hx.choose else x
  have hf1 : ∀ x ∈ a.itemSet, f x ∈ b.itemSet ∧ x.equal (f x) = true := by
    intro x hx
    have hex : ∃ y, y ∈ b.itemSet ∧ x.equal y = true := hpick x hx
    have hfx : f x = hex.choose := dif_pos hex
    rw [hfx]
    exact hex.choose_spec
  have ha_nodup : a.itemSet.Nodup := List.Nodup.of_map _ hac
  have hcard_a : a.itemSet.toFinset.card = a.itemSet.length :=
    List.toFinset_card_of_nodup ha_nodup
  have hmaps : ∀ x ∈ a.itemSet.toFinset,
      f x ∈ b.itemSet.toFinset.filter
        (fun y => ∃ x ∈ a.itemSet, x.equal y = true) := by
    intro x hx
    rw [List.mem_toFinset] at hx
    obtain ⟨hfb, hfeq⟩ := hf1 x hx
    exact Finset.mem_filter.mpr ⟨List.mem_toFinset.mpr hfb, ⟨x, hx, hfeq⟩⟩
  have hinj : Set.InjOn f a.itemSet.toFinset := by
    intro x1 hx1 x2 hx2 hfeq
    have hx1' : x1 ∈ a.itemSet := by simpa using hx1
    have hx2' : x2 ∈ a.itemSet := by simpa using hx2
    obtain ⟨hb1, he1⟩ := hf1 x1 hx1'
    obtain ⟨hb2, he2⟩ := hf1 x2 hx2'
    rw [hfeq] at he1
    rw [itemEqual_iff] at he1 he2
    exact coresNodup_inj hac hx1' hx2'
      (he1.2.1.trans he2.2.1.symm) (he1.1.trans he2.1.symm)
  have hle : a.itemSet.toFinset.card ≤
      (b.itemSet.toFinset.filter
        (fun y => ∃ x ∈ a.itemSet, x.equal y = true)).card :=
    Finset.card_le_card_of_injOn f hmaps hinj
  have hMeq : b.itemSet.toFinset.filter
      (fun y => ∃ x ∈ a.itemSet, x.equal y = true) =
      b.itemSet.toFinset := by
    apply Finset.eq_of_subset_of_card_le (Finset.filter_subset _ _)
    calc b.itemSet.toFinset.card ≤ b.itemSet.length :=
          List.toFinset_card_le b.itemSet
      _ = a.itemSet.length := hlen.symm
      _ = a.itemSet.toFinset.card := hcard_a.symm
      _ ≤ _ := hle
  intro y hy
  have hyM : y ∈ b.itemSet.toFinset.filter
      (fun y => ∃ x ∈ a.itemSet, x.equal y = true) := by
    rw [hMeq]
    exact List.mem_toFinset.mpr hy
  obtain ⟨x, hx, hxe⟩ := (Finset.mem_filter.mp hyM).2
  exact ⟨x, hx, itemEqual_symm (hal x hx) (hb y hy) hxe⟩

theorem distinct_snoc {states : List LR1_State} {sNew : LR1_State}
    (hd : StatesDistinct states) (hws : ∀ s ∈ states, WfState s)
    (hwn : WfState sNew) (hne : ∀ s ∈ states, s.equal sNew = false) :
    StatesDistinct (states ++ [sNew]) := by
  unfold StatesDistinct at hd ⊢
  rw [List.pairwise_append]
  refine ⟨hd, by simp, ?_⟩
  intro a ha b hb
  simp only [List.mem_singleton] at hb
  subst hb
  have h1 : a.equal b = false := hne a ha
  have h2 : b.equal a = false := by
    cases hc : b.equal a with
    | false => rfl
    | true =>
      have := stateEqual_symm_true hwn (hws a ha).2 hc
      rw [h1] at this
      cases this
  exact ⟨h1, h2⟩

theorem addItem_looksNodup {s : LR1_State} {n : LR1_StateItem}
    (h : LooksNodup s.itemSet) (hn : n.lookAheadSet.Nodup) :
    LooksNodup ((s.addItem n).1).itemSet := by
  by_cases hex : ∃ i ∈ s.itemSet, i.pos = n.pos ∧ i.ruleIdx = n.ruleIdx
  · obtain ⟨l₁, m, l₂, heq, _, _, haux⟩ := addItemAux_found hex
    unfold LR1_State.addItem
    rw [haux]
    simp only [if_true]
    intro i hi
    rw [heq] at h
    rcases List.mem_append.mp hi with hi1 | hi2
    · exact h i (List.mem_append.mpr (Or.inl hi1))
    · rcases List.mem_cons.mp hi2 with rfl | hi3
      · exact StrSet.union_nodup
          (h m (List.mem_append.mpr (Or.inr (List.mem_cons_self m l₂))))
          n.lookAheadSet
      · exact h i (List.mem_append.mpr (Or.inr (List.mem_cons_of_mem m hi3)))
  · have hnone : ∀ i ∈ s.itemSet,
        ¬(i.pos = n.pos ∧ i.ruleIdx = n.ruleIdx) := by
      intro i hi hcon
      exact hex ⟨i, hi, hcon⟩
    unfold LR1_State.addItem
    rw [addItemAux_not_found hnone]
    simp only [Bool.false_eq_true, if_false]
    intro i hi
    rcases List.mem_append.mp hi with hi1 | hi2
    · exact h i hi1
    · rw [List.mem_singleton.mp hi2]
      exact hn

theorem closureItemNew_look {rules : List LR1_Rule} {first : FirstMap}
    {item : LR1_StateItem} (hfirst : ∀ v, (first v).Nodup)
    (hitem : item.lookAheadSet.Nodup) :
    ∀ j ∈ closureItemNew rules first item, j.lookAheadSet.Nodup := by
  intro j hj
  unfold closureItemNew at hj
  dsimp only at hj
  cases hget : (getRule rules item.ruleIdx).rhs.get? item.pos with
  | none =>
    rw [hget] at hj
    cases hj
  | some x =>
    rw [hget] at hj
    simp only at hj
    by_cases hty : x.type = LR1_RuleItemType.NonTerminal
    · rw [if_pos hty] at hj
      obtain ⟨i, _, hsome⟩ := List.mem_filterMap.mp hj
      by_cases hl : (getRule rules i).lhs = x.value
      · rw [if_pos hl] at hsome
        injection hsome with hjeq
        subst hjeq
        simp only
        cases hb : (getRule rules item.ruleIdx).rhs.get? (item.pos + 1) with
        | none => exact hitem
        | some b =>
          by_cases hbt : b.type = LR1_RuleItemType.Terminal
          · simp [hbt]
          · simp only [hbt, if_false]
            exact hfirst b.value
      · rw [if_neg hl] at hsome
        cases hsome
    · rw [if_neg hty] at hj
      cases hj

theorem foldl_addItem_looksNodup (newItems : List LR1_StateItem) :
    ∀ acc, LooksNodup acc → (∀ i ∈ newItems, i.lookAheadSet.Nodup) →
    LooksNodup (newItems.foldl
      (fun acc it => ((LR1_State.mk acc).addItem it).1.itemSet) acc) := by
  induction newItems with
  | nil => intro acc h _; exact h
  | cons it rest ih =>
    intro acc h hn
    exact ih _ (@addItem_looksNodup ⟨acc⟩ it h
        (hn it (List.mem_cons_self it rest)))
      (fun i hi => hn i (List.mem_cons_of_mem it hi))

theorem closurePass_looksNodup {rules : List LR1_Rule} {first : FirstMap}
    {items : List LR1_StateItem} (hfirst : ∀ v, (first v).Nodup)
    (h : LooksNodup items) :
    LooksNodup (closurePass rules first items) := by
  apply foldl_addItem_looksNodup _ items h
  intro i hi
  obtain ⟨src, hsrc, hmem⟩ := List.mem_flatMap.mp hi
  exact closureItemNew_look hfirst (h src hsrc) i hmem

theorem closureIter_looksNodup (rules : List LR1_Rule) (first : FirstMap)
    (hfirst : ∀ v, (first v).Nodup) :
    ∀ (fuel : Nat) (items closed : List LR1_StateItem), LooksNodup items →
    closureIter rules first fuel items = some closed →
    LooksNodup closed := by
  intro fuel
  induction fuel with
  | zero =>
    intro items closed h hcl
    exact absurd hcl (by simp [closureIter])
  | succ n ih =>
    intro items closed h hcl
    simp only [closureIter] at hcl
    by_cases hlen : items.length < (closurePass rules first items).length
    · rw [if_pos hlen] at hcl
      exact ih _ _ (closurePass_looksNodup hfirst h) hcl
    · rw [if_neg hlen] at hcl
      cases hcl
      exact closurePass_looksNodup hfirst h

theorem seedStep_wf {rules : List LR1_Rule} {ty : LR1_RuleItemType}
    {v : String} {si : LR1_State} {it : LR1_StateItem} {si' : LR1_State}
    (h : seedStep rules ty v si it = Except.ok si') (hw : WfState si)
    (hit : it.lookAheadSet.Nodup) : WfState si' := by
  unfold seedStep at h
  cases hget : (getRule rules it.ruleIdx).rhs.get? it.pos with
  | none =>
    rw [hget] at h
    injection h with h2
    rw [← h2]
    exact hw
  | some x =>
    rw [hget] at h
    simp only at h
    by_cases hc : x.type = ty ∧ x.value = v
    · rw [if_pos hc] at h
      by_cases hp : (si.addItem { it with pos := it.pos + 1 }).2 = true
      · rw [if_pos hp] at h
        injection h with h2
        rw [← h2]
        exact ⟨addItem_coresNodup hw.1, addItem_looksNodup hw.2 hit⟩
      · rw [if_neg hp] at h
        cases h
    · rw [if_neg hc] at h
      injection h with h2
      rw [← h2]
      exact hw

theorem seedFold_wf {rules : List LR1_Rule} {ty : LR1_RuleItemType}
    {v : String} :
    ∀ (items : List LR1_StateItem) (si s' : LR1_State), WfState si →
    LooksNodup items →
    List.foldlM (seedStep rules ty v) si items = Except.ok s' →
    WfState s' := by
  intro items
  induction items with
  | nil =>
    intro si s' hw _ h
    injection h with h2
    rw [← h2]
    exact hw
  | cons it rest ih =>
    intro si s' hw hl h
    cases hstep : seedStep rules ty v si it with
    | error g =>
      have hrw : List.foldlM (seedStep rules ty v) si (it :: rest) =
          Except.error g := by
        show (seedStep rules ty v si it >>= fun x =>
          List.foldlM (seedStep rules ty v) x rest) = _
        rw [hstep]
        rfl
      rw [hrw] at h
      cases h
    | ok si2 =>
      have hrw : List.foldlM (seedStep rules ty v) si (it :: rest) =
          List.foldlM (seedStep rules ty v) si2 rest := by
        show (seedStep rules ty v si it >>= fun x =>
          List.foldlM (seedStep rules ty v) x rest) = _
        rw [hstep]
        rfl
      rw [hrw] at h
      exact ih si2 s'
        (seedStep_wf hstep hw (hl it (List.mem_cons_self it rest)))
        (fun i hi => hl i (List.mem_cons_of_mem it hi)) h

theorem buildSuccessors_wf {rules : List LR1_Rule} {ty : LR1_RuleItemType}
    {closed : List LR1_StateItem} (hl : LooksNodup closed) :
    ∀ (vs : StrSet) (out : List (LR1_RuleItem × LR1_State)),
    buildSuccessors rules ty closed vs = Except.ok out →
    ∀ p ∈ out, WfState p.2 := by
  intro vs
  induction vs with
  | nil =>
    intro out h p hp
    injection h with h2
    rw [← h2] at hp
    cases hp
  | cons v rest ih =>
    intro out h p hp
    unfold buildSuccessors at h
    cases hs : seedSuccessor rules ty v closed with
    | error g =>
      rw [hs] at h
      cases h
    | ok si =>
      rw [hs] at h
      cases hr : buildSuccessors rules ty closed rest with
      | error g =>
        rw [hr] at h
        cases h
      | ok outr =>
        rw [hr] at h
        injection h with h2
        rw [← h2] at hp
        rcases List.mem_cons.mp hp with rfl | hp2
        · exact seedFold_wf closed (LR1_State.mk []) si
            ⟨by simp [CoresNodup, cores], by intro i hi; cases hi⟩ hl hs
        · exact ih outr hr p hp2

theorem calcItemSet_wf {rules : List LR1_Rule} {first : FirstMap}
    {cfuel : Nat} {s : LR1_State} {closed : LR1_State}
    {succs : List (LR1_RuleItem × LR1_State)}
    (h : LR1_State.calcItemSet rules first cfuel s =
      Except.ok (closed, succs))
    (hw : WfState s) (hfirst : ∀ v, (first v).Nodup) :
    WfState closed ∧ ∀ p ∈ succs, WfState p.2 := by
  unfold LR1_State.calcItemSet at h
  cases hcl : closureIter rules first cfuel s.itemSet with
  | none =>
    rw [hcl] at h
    cases h
  | some citems =>
    rw [hcl] at h
    simp only at h
    cases hts : buildSuccessors rules LR1_RuleItemType.Terminal citems
        (successorSymbols rules citems LR1_RuleItemType.Terminal) with
    | error g =>
      rw [hts] at h
      cases h
    | ok ts =>
      rw [hts] at h
      cases hnts : buildSuccessors rules LR1_RuleItemType.NonTerminal citems
          (successorSymbols rules citems LR1_RuleItemType.NonTerminal) with
      | error g =>
        rw [hnts] at h
        cases h
      | ok nts =>
        rw [hnts] at h
        injection h with h2
        have hcnd : CoresNodup citems :=
          closureIter_coresNodup rules first cfuel s.itemSet citems hw.1 hcl
        have hlnd : LooksNodup citems :=
          closureIter_looksNodup rules first hfirst cfuel s.itemSet citems
            hw.2 hcl
        have hc1 : closed = LR1_State.mk citems :=
          (congrArg Prod.fst h2).symm
        have hc2 : succs = ts ++ nts := (congrArg Prod.snd h2).symm
        constructor
        · rw [hc1]
          exact ⟨hcnd, hlnd⟩
        · intro p hp
          rw [hc2] at hp
          rcases List.mem_append.mp hp with hp1 | hp2
          · exact buildSuccessors_wf hlnd _ ts hts p hp1
          · exact buildSuccessors_wf hlnd _ nts hnts p hp2

theorem updateAtIdx_map {α β : Type} (g : α → β) (f : α → α)
    (hgf : ∀ a, g (f a) = g a) :
    ∀ (l : List α) (i : Nat), (updateAtIdx l i f).map g = l.map g := by
  intro l
  induction l with
  | nil => intro i; rfl
  | cons a rest ih =>
    intro i
    cases i with
    | zero => simp [updateAtIdx, hgf]
    | succ j => simp [updateAtIdx, ih j]

theorem resolveEdge_state_map (states : List StateRec)
    (e : Option (Nat × Nat)) (d : Nat) :
    (resolveEdge states e d).map (·.state) = states.map (·.state) := by
  cases e with
  | none => rfl
  | some p =>
    obtain ⟨c, slot⟩ := p
    exact updateAtIdx_map (fun x => x.state)
      (fun st =>
        { st with
          outEdges :=
            updateAtIdx st.outEdges slot (fun ed => (ed.1, some d)) })
      (fun a => rfl) states c

theorem mem_resolveEdge_state {states : List StateRec}
    {e : Option (Nat × Nat)} {d : Nat} {r : StateRec}
    (h : r ∈ resolveEdge states e d) :
    ∃ r0 ∈ states, r.state = r0.state := by
  have hmap := resolveEdge_state_map states e d
  have hm : r.state ∈ (resolveEdge states e d).map (·.state) :=
    List.mem_map_of_mem _ h
  rw [hmap] at hm
  obtain ⟨r0, hr0, heq⟩ := List.mem_map.mp hm
  exact ⟨r0, hr0, heq.symm⟩

theorem findIdx?_none_aux {α : Type} (p : α → Bool) :
    ∀ (l : List α) (i : Nat), List.findIdx? p l i = none →
    ∀ x ∈ l, p x = false := by
  intro l
  induction l with
  | nil => intro i _ x hx; cases hx
  | cons a rest ih =>
    intro i h x hx
    rw [List.findIdx?_cons] at h
    by_cases hp : p a = true
    · rw [if_pos hp] at h
      cases h
    · rw [if_neg hp] at h
      rcases List.mem_cons.mp hx with rfl | hx2
      · cases hpa : p x with
        | false => rfl
        | true => exact absurd hpa hp
      · cases hmap : List.findIdx? p rest (i + 1) with
        | none => exact ih (i + 1) hmap x hx2
        | some j => rw [hmap] at h; cases h

theorem findEqualIdx_none {states : List StateRec} {sNew : LR1_State}
    (h : findEqualIdx states sNew = none) :
    ∀ r ∈ states, r.state.equal sNew = false := by
  intro r hr
  unfold findEqualIdx at h
  exact findIdx?_none_aux _ states 0 h r hr

theorem enum_snd_mem {α : Type} {l : List α} {p : Nat × α}
    (h : p ∈ l.enum) : p.2 ∈ l := by
  obtain ⟨i, a⟩ := p
  have hg := List.mem_enum h
  simp only at hg ⊢
  rw [hg.2]
  exact List.getElem_mem hg.1

theorem buildStates_distinct (rules : List LR1_Rule) (first : FirstMap)
    (cfuel : Nat) (hfirst : ∀ v, (first v).Nodup) :
    ∀ (fuel : Nat) (states : List StateRec) (Q : List Pending),
    StatesDistinct (states.map (·.state)) →
    (∀ r ∈ states, WfState r.state) →
    (∀ p ∈ Q, WfState p.state) →
    StatesDistinct
      ((buildStates rules first cfuel fuel states Q).1.map (·.state)) ∧
    ∀ r ∈ (buildStates rules first cfuel fuel states Q).1,
      WfState r.state := by
  intro fuel
  induction fuel with
  | zero =>
    intro states Q hd hw hQ
    cases Q with
    | nil => exact ⟨hd, hw⟩
    | cons a as => exact ⟨hd, hw⟩
  | succ n ih =>
    intro states Q hd hw hQ
    cases Q with
    | nil => exact ⟨hd, hw⟩
    | cons a as =>
      rw [buildStates_succ]
      cases hq : (a :: as).getLast? with
      | none => simp at hq
      | some q =>
        have hqmem : q ∈ a :: as := List.mem_of_mem_getLast? hq
        have wq : WfState q.state := hQ q hqmem
        simp only
        cases hci : LR1_State.calcItemSet rules first cfuel q.state with
        | error e => exact ⟨hd, hw⟩
        | ok pr =>
          obtain ⟨closed, succs⟩ := pr
          dsimp only
          have hwf := calcItemSet_wf hci wq hfirst
          have hQ' : ∀ p ∈ (a :: as).dropLast, WfState p.state :=
            fun p hp => hQ p ((List.dropLast_sublist (a :: as)).subset hp)
          cases hfe : findEqualIdx states closed with
          | some j =>
            dsimp only
            apply ih
            · rw [resolveEdge_state_map]
              exact hd
            · intro r hr
              obtain ⟨r0, hr0, heq⟩ := mem_resolveEdge_state hr
              rw [heq]
              exact hw r0 hr0
            · exact hQ'
          | none =>
            dsimp only
            apply ih
            · rw [List.map_append, resolveEdge_state_map]
              simp only [List.map_cons, List.map_nil]
              apply distinct_snoc hd
              · intro s hs
                obtain ⟨r0, hr0, heq⟩ := List.mem_map.mp hs
                rw [← heq]
                exact hw r0 hr0
              · exact hwf.1
              · intro s hs
                obtain ⟨r0, hr0, heq⟩ := List.mem_map.mp hs
                rw [← heq]
                exact findEqualIdx_none hfe r0 hr0
            · intro r hr
              rcases List.mem_append.mp hr with hr1 | hr2
              · obtain ⟨r0, hr0, heq⟩ := mem_resolveEdge_state hr1
                rw [heq]
                exact hw r0 hr0
              · rw [List.mem_singleton.mp hr2]
                exact hwf.1
            · intro p hp
              rcases List.mem_append.mp hp with hp1 | hp2
              · exact hQ' p hp1
              · obtain ⟨pr2, hpr2, heq⟩ := List.mem_map.mp hp2
                rw [← heq]
                exact hwf.2 pr2.2 (enum_snd_mem hpr2)

/-- **C4.** Automaton uniqueness: `addState` preserves pairwise
distinctness of the admitted states under `LR1_State.equal` (equal item
sets with identical lookahead sets per core) by never admitting a state
equal to an already admitted one; consequently, after `calcTable` completes
(any fuel, any grammar, fresh object), no two admitted states of the
automaton are equal. -/
theorem claim_C4_automaton_uniqueness :
    (∀ (states : List LR1_State) (sNew : LR1_State),
      StatesDistinct states → (∀ s ∈ states, WfState s) → WfState sNew →
      StatesDistinct (LR1.addState states sNew).1) ∧
    (∀ (fuel : Nat) (lr : LR1Rec), lr.states = [] →
      StatesDistinct
        (((LR1.calcTable fuel lr).1).states.map (·.state))) := by
  constructor
  · intro states sNew hd hws hwn
    unfold LR1.addState
    by_cases hany : states.any (fun s => s.equal sNew) = true
    · rw [if_pos hany]
      exact hd
    · rw [if_neg hany]
      apply distinct_snoc hd hws hwn
      intro s hs
      cases hc : s.equal sNew with
      | false => rfl
      | true => exact absurd (List.any_eq_true.mpr ⟨s, hs, hc⟩) hany
  · intro fuel lr hempty
    unfold LR1.calcTable
    by_cases hq : lr.rules.isEmpty
    · simp only [hq, if_true]
      rw [hempty]
      exact List.Pairwise.nil
    · simp only [hq, Bool.false_eq_true, if_false]
      cases hnt : findUndefinedNT lr.rules with
      | some v =>
        simp only [hnt]
        rw [hempty]
        exact List.Pairwise.nil
      | none =>
        simp only [hnt]
        have hinit : WfState ((LR1_State.mk []).addItem ⟨0, ["END"], 0⟩).1 := by
          constructor
          · unfold CoresNodup cores
            decide
          · intro i hi
            rcases List.mem_singleton.mp hi with rfl
            decide
        have h := buildStates_distinct lr.rules (LR1.calcFirst lr.rules)
          (closureFuelBound lr.rules)
          (fun v => (calcFirst_inv lr.rules v).1) fuel []
          [⟨((LR1_State.mk []).addItem ⟨0, ["END"], 0⟩).1, none⟩]
          List.Pairwise.nil (by intro r hr; cases hr)
          (by
            intro p hp
            rw [List.mem_singleton.mp hp]
            exact hinit)
        cases hbs : (buildStates lr.rules (LR1.calcFirst lr.rules)
            (closureFuelBound lr.rules) fuel []
            [⟨((LR1_State.mk []).addItem ⟨0, ["END"], 0⟩).1, none⟩]).2 with
        | some e =>
          simp only [hbs]
          exact h.1
        | none =>
          simp only [hbs]
          exact h.1

/-- Witness for C4: running `calcTable` on the grammar `s = t; t = "a";`
admits pairwise distinct states. -/
theorem claim_C4_automaton_uniqueness_witness :
    StatesDistinct
      (((LR1.calcTable 20 (lrFresh Gfirst)).1).states.map (·.state)) :=
  claim_C4_automaton_uniqueness.2 20 (lrFresh Gfirst) rfl

/-! ## Parse-loop claims (C5, C6, C7) -/

/-- **C7.** In each parse step with a terminal-, delimiter- or
identifier-typed current token, the parser first looks up the action key
`":" + lexeme`; only if that key is absent does it fall back to the
token-class key; and if neither lookup yields an entry, it raises the
unexpected-token error through the lexer. -/
theorem claim_C7_action_lookup (rules : List LR1_Rule) (table : LR1_Table)
    (cbs : List String) (ps : ParseState) (state : Nat)
    (row : LR1_TableRow)
    (htop : ps.stack.getLast? = some (StackElem.stateIdx state))
    (hrow : table.rows.get? state = some row)
    (hty : ps.lexer.getToken.type = LexerTokenType.TER ∨
      ps.lexer.getToken.type = LexerTokenType.DEL ∨
      ps.lexer.getToken.type = LexerTokenType.ID) :
    (∀ e, lookupEntry row.actionEntries (":" ++ ps.lexer.getToken.token) =
      some e → findActionEntry row ps.lexer.getToken = some e) ∧
    (lookupEntry row.actionEntries (":" ++ ps.lexer.getToken.token) = none →
      findActionEntry row ps.lexer.getToken =
        lookupEntry row.actionEntries ps.lexer.getToken.type.key) ∧
    (findActionEntry row ps.lexer.getToken = none →
      parseStep rules table cbs ps =
        StepRes.err (PError.unexpectedToken ps.lexer.getToken.token) ps) := by
  refine ⟨?_, ?_, ?_⟩
  · intro e he
    unfold findActionEntry
    rw [if_pos hty, he]
  · intro hnone
    unfold findActionEntry
    rw [if_pos hty, hnone]
  · intro hnone
    unfold parseStep
    simp only [htop, hrow, hnone]

/-- Witness for C7: a one-row table whose action map holds only `":a"`;
with current token a terminal `a`, the lexeme key wins the lookup. -/
theorem claim_C7_action_lookup_witness :
    findActionEntry
      (LR1_TableRow.mk [(":a", (⟨true, 1⟩ : LR1_TableEntry))] [])
      (Lexer.getToken ⟨[⟨LexerTokenType.TER, "a"⟩], 0⟩) =
      some ⟨true, 1⟩ :=
  (claim_C7_action_lookup [] (LR1_Table.mk
      [LR1_TableRow.mk [(":a", ⟨true, 1⟩)] []]) []
    ⟨[StackElem.stateIdx 0], ⟨[⟨LexerTokenType.TER, "a"⟩], 0⟩, []⟩ 0
    (LR1_TableRow.mk [(":a", ⟨true, 1⟩)] []) rfl rfl
    (Or.inl rfl)).1 ⟨true, 1⟩ (by decide)

/-- **C5.** A Reduce action for the root rule (rule index 0) never
continues the parse loop: whatever the callback situation, the step returns
`done` or an error.  Moreover, when rule 0's callback (if named) is
registered, the step raises the premature-end error through the lexer when
the next input token is not END, and otherwise terminates the parse
successfully. -/
theorem claim_C5_root_reduce (rules : List LR1_Rule) (table : LR1_Table)
    (cbs : List String) (ps : ParseState) (state : Nat)
    (row : LR1_TableRow) (entry : LR1_TableEntry) (rule0 : LR1_Rule)
    (htop : ps.stack.getLast? = some (StackElem.stateIdx state))
    (hrow : table.rows.get? state = some row)
    (hentry : findActionEntry row ps.lexer.getToken = some entry)
    (hshift : entry.shift = false) (hroot : entry.value = 0)
    (hrule : rules.get? 0 = some rule0) :
    (∀ st', parseStep rules table cbs ps ≠ StepRes.cont st') ∧
    ((rule0.callBackId = "" ∨ rule0.callBackId ∈ cbs) →
      (ps.lexer.isEND = false →
        ∃ st', parseStep rules table cbs ps =
          StepRes.err PError.prematureEnd st') ∧
      (ps.lexer.isEND = true →
        ∃ st', parseStep rules table cbs ps = StepRes.done st')) := by
  have hred : parseStep rules table cbs ps =
      (if rule0.callBackId ≠ "" ∧ ¬(cbs.contains rule0.callBackId) then
        StepRes.err (PError.unimplementedCallback rule0.callBackId)
          { ps with
            stack :=
              ps.stack.take (ps.stack.length - 2 * rule0.rhs.length) }
      else
        let items := ps.stack.drop (ps.stack.length - 2 * rule0.rhs.length)
        let stack1 := ps.stack.take (ps.stack.length - 2 * rule0.rhs.length)
        let trace' := if rule0.callBackId ≠ "" then
            ps.trace ++ [(rule0.callBackId,
              (List.range (items.length / 2)).filterMap (fun i =>
                match rule0.rhs.get? i with
                | some it =>
                  if it.type = LR1_RuleItemType.Terminal then
                    some (items.getD (2 * i) (StackElem.stateIdx 0))
                  else none
                | none => none))]
          else ps.trace
        if ps.lexer.isEND = false then
          StepRes.err PError.prematureEnd
            { stack := stack1, lexer := ps.lexer, trace := trace' }
        else
          StepRes.done
            { stack := stack1, lexer := ps.lexer, trace := trace' }) := by
    unfold parseStep
    simp only [htop, hrow, hentry, hshift, hroot, hrule]
    simp
  constructor
  · intro st' hcon
    rw [hred] at hcon
    by_cases hcb : rule0.callBackId ≠ "" ∧ ¬(cbs.contains rule0.callBackId)
    · rw [if_pos hcb] at hcon
      cases hcon
    · rw [if_neg hcb] at hcon
      simp only at hcon
      by_cases hend : ps.lexer.isEND = false
      · rw [if_pos hend] at hcon
        cases hcon
      · rw [if_neg hend] at hcon
        cases hcon
  · intro hcb
    have hguard : ¬(rule0.callBackId ≠ "" ∧
        ¬(cbs.contains rule0.callBackId)) := by
      rintro ⟨hne, hnc⟩
      rcases hcb with h1 | h2
      · exact hne h1
      · exact hnc (by simpa using h2)
    constructor
    · intro hend
      rw [hred, if_neg hguard]
      simp only [hend, if_pos rfl]
      exact ⟨_, rfl⟩
    · intro hend
      rw [hred, if_neg hguard]
      have hend' : ¬(ps.lexer.isEND = false) := by rw [hend]; simp
      simp only [if_neg hend']
      exact ⟨_, rfl⟩

/-- Witness for C5: root rule `s = ;`, reduce entry for END at state 0, and
exhausted input — the step accepts. -/
theorem claim_C5_root_reduce_witness :
    ∃ st', parseStep [⟨"s", [], ""⟩]
      (LR1_Table.mk [LR1_TableRow.mk [("END", ⟨false, 0⟩)] []]) []
      ⟨[StackElem.stateIdx 0], ⟨[], 0⟩, []⟩ = StepRes.done st' :=
  ((claim_C5_root_reduce [⟨"s", [], ""⟩]
      (LR1_Table.mk [LR1_TableRow.mk [("END", ⟨false, 0⟩)] []]) []
      ⟨[StackElem.stateIdx 0], ⟨[], 0⟩, []⟩ 0
      (LR1_TableRow.mk [("END", ⟨false, 0⟩)] []) ⟨false, 0⟩
      ⟨"s", [], ""⟩ rfl rfl (by decide) rfl rfl rfl).2
    (Or.inl rfl)).2 (by decide)

/-- **C6.** On every Reduce(r) step (with the rule's callback registered or
absent, and the stack long enough to hold the handle, as the parse
discipline guarantees): the parser pops exactly `2·|rhs(r)|` slots — the
kept prefix is untouched and at most the two goto slots are pushed back —
and when rule r has a callback it is invoked with exactly the popped slots
at the even offsets whose RHS position is a terminal, in right-hand-side
order, skipping non-terminal positions. -/
theorem claim_C6_reduce_pops (rules : List LR1_Rule) (table : LR1_Table)
    (cbs : List String) (ps : ParseState) (state : Nat)
    (row : LR1_TableRow) (entry : LR1_TableEntry) (rule : LR1_Rule)
    (htop : ps.stack.getLast? = some (StackElem.stateIdx state))
    (hrow : table.rows.get? state = some row)
    (hentry : findActionEntry row ps.lexer.getToken = some entry)
    (hshift : entry.shift = false)
    (hrule : rules.get? entry.value = some rule)
    (hcb : rule.callBackId = "" ∨ rule.callBackId ∈ cbs)
    (hlen : 2 * rule.rhs.length + 1 ≤ ps.stack.length) :
    (ps.stack.drop (ps.stack.length - 2 * rule.rhs.length)).length =
      2 * rule.rhs.length ∧
    (stepState (parseStep rules table cbs ps)).stack.take
        (ps.stack.length - 2 * rule.rhs.length) =
      ps.stack.take (ps.stack.length - 2 * rule.rhs.length) ∧
    (stepState (parseStep rules table cbs ps)).stack.length ≤
      ps.stack.length - 2 * rule.rhs.length + 2 ∧
    (stepState (parseStep rules table cbs ps)).trace =
      ps.trace ++ (if rule.callBackId = "" then [] else
        [(rule.callBackId,
          (List.range rule.rhs.length).filterMap (fun i =>
            match rule.rhs.get? i with
            | some it =>
              if it.type = LR1_RuleItemType.Terminal then
                some ((ps.stack.drop
                  (ps.stack.length - 2 * rule.rhs.length)).getD (2 * i)
                  (StackElem.stateIdx 0))
              else none
            | none => none))]) := by
  have hitems : (ps.stack.drop
      (ps.stack.length - 2 * rule.rhs.length)).length =
      2 * rule.rhs.length := by
    rw [List.length_drop]
    omega
  have hguard : ¬(rule.callBackId ≠ "" ∧
      ¬(cbs.contains rule.callBackId)) := by
    rintro ⟨hne, hnc⟩
    rcases hcb with h1 | h2
    · exact hne h1
    · exact hnc (by simpa using h2)
  have hs1len : (ps.stack.take
      (ps.stack.length - 2 * rule.rhs.length)).length =
      ps.stack.length - 2 * rule.rhs.length := by
    rw [List.length_take]
    omega
  have htr : ∀ X : List (String × List StackElem),
      (if rule.callBackId ≠ "" then ps.trace ++ X else ps.trace) =
      ps.trace ++ (if rule.callBackId = "" then [] else X) := by
    intro X
    by_cases hid : rule.callBackId = "" <;> simp [hid]
  have key : ∃ rest : List StackElem, rest.length ≤ 2 ∧
      stepState (parseStep rules table cbs ps) =
        ⟨ps.stack.take (ps.stack.length - 2 * rule.rhs.length) ++ rest,
         ps.lexer,
         ps.trace ++ (if rule.callBackId = "" then [] else
           [(rule.callBackId,
             (List.range ((ps.stack.drop (ps.stack.length -
                 2 * rule.rhs.length)).length / 2)).filterMap (fun i =>
               match rule.rhs.get? i with
               | some it =>
                 if it.type = LR1_RuleItemType.Terminal then
                   some ((ps.stack.drop (ps.stack.length -
                     2 * rule.rhs.length)).getD (2 * i)
                     (StackElem.stateIdx 0))
                 else none
               | none => none))])⟩ := by
    unfold parseStep
    simp only [htop, hrow, hentry, hshift, Bool.false_eq_true, if_false,
      hrule]
    rw [if_neg hguard, htr]
    by_cases hr0 : entry.value = 0
    · simp only [hr0]
      by_cases hend : ps.lexer.isEND = false
      · simp only [if_true]
        rw [if_pos hend]
        exact ⟨[], by simp, by simp [stepState]⟩
      · simp only [if_true]
        rw [if_neg hend]
        exact ⟨[], by simp, by simp [stepState]⟩
    · rw [if_neg hr0]
      cases hlast : (ps.stack.take
          (ps.stack.length - 2 * rule.rhs.length)).getLast? with
      | none =>
        simp only [hlast]
        exact ⟨[], by simp, by simp [stepState]⟩
      | some se =>
        cases se with
        | stateIdx s2 =>
          simp only [hlast]
          cases hrow2 : table.rows.get? s2 with
          | none =>
            simp only [hrow2]
            exact ⟨[], by simp, by simp [stepState]⟩
          | some row2 =>
            simp only [hrow2]
            cases hgoto : lookupEntry row2.gotoEntries rule.lhs with
            | none =>
              simp only [hgoto]
              exact ⟨[], by simp, by simp [stepState]⟩
            | some g =>
              simp only [hgoto]
              exact ⟨[StackElem.sym rule.lhs, StackElem.stateIdx g.value],
                by simp, by simp [stepState]⟩
        | tok t =>
          simp only [hlast]
          exact ⟨[], by simp, by simp [stepState]⟩
        | sym s3 =>
          simp only [hlast]
          exact ⟨[], by simp, by simp [stepState]⟩
  obtain ⟨rest, hrest, hkey⟩ := key
  have htake : ∀ (l1 l2 : List StackElem) (n : Nat), l1.length = n →
      (l1 ++ l2).take n = l1 := by
    intro l1 l2 n h
    rw [← h]
    exact List.take_left l1 l2
  refine ⟨hitems, ?_, ?_, ?_⟩
  · rw [hkey]
    simp only
    rw [htake _ rest _ hs1len]
  · rw [hkey]
    simp only [List.length_append, hs1len]
    omega
  · rw [hkey]
    simp only
    rw [hitems, Nat.mul_div_cancel_left rule.rhs.length (by norm_num)]


/-- Witness for C6: reducing `s = ":a" -> cb` pops the token-state pair and
passes exactly the shifted `"a"` token to the callback. -/
theorem claim_C6_reduce_pops_witness :
    (stepState (parseStep wit6rules wit6table ["cb"] wit6ps)).trace =
      [("cb", [StackElem.tok ⟨LexerTokenType.TER, "a"⟩])] := by
  have h := claim_C6_reduce_pops wit6rules wit6table ["cb"] wit6ps 2
    ⟨[(":b", ⟨false, 1⟩)], []⟩ ⟨false, 1⟩
    ⟨"s", [⟨LR1_RuleItemType.Terminal, ":a"⟩], "cb"⟩
    (by decide) (by decide) (by decide) rfl (by decide)
    (Or.inr (by decide)) (by decide)
  rw [h.2.2.2]
  decide
